import Mathlib

/-! # domain-list-community: include resolution and classification

A shallow embedding of `main.go`: the data model (`Entry`, `List`, `ParsedList`),
`ParsedList.toProto`, `parseEntry`, `ParseList` and the build loop of `main`,
followed by theorems about them.

Conventions of the embedding.
* A Go `(result, error)` pair is an `Except String _`: `.error msg` is the Go
  return `nil, errors.New(msg)`, `.ok x` is `x, nil`.
* `ParseList` contains an unbounded `for` loop. The loop is embedded with a
  pass budget: `none` means that the loop is still running after that many
  passes, `some r` that it has returned `r`.
* The registry `map[string]*List` is an association list looked up by key
  (first binding wins); every stored pointer is non-nil, as in `main`.
* `map[string]bool` (`Inclusion`) is the list of the keys that were set to
  `true`, without repetitions.
* `strings.ToUpper` and `strings.ToLower` apply the case mappings of Go's
  package `unicode` to every character. These mappings are not part of
  `main.go`; they are a parameter (`Unicode`) of the embedding, and a theorem
  that needs a property of them states it as a hypothesis. Closed examples are
  evaluated with `ascii`, which agrees with Go on ASCII text.
* Go leaves the order in which `range` yields the entries of a map open; the
  build loop of `main` therefore takes that order as an argument.
* `proto.Marshal` is not part of `main.go`. The build loop is stated for an
  arbitrary serializer; the definitions marked as modelled from the spec give
  the encoding that the specification describes, and a decoder for it.
-/

namespace DomainList

/-- The case mappings `unicode.ToUpper` and `unicode.ToLower` of Go's standard
library, from one character to one character. `main.go` uses them through
`strings.ToUpper` and `strings.ToLower` and does not contain them: they are a
parameter of everything that follows. -/
structure Unicode where
  ToUpper : Char → Char
  ToLower : Char → Char

/-- The case mappings that move the letters `a`..`z` and `A`..`Z` and nothing
else. On text made of ASCII characters they are the mappings of Go. -/
def ascii : Unicode := { ToUpper := Char.toUpper, ToLower := Char.toLower }

/-- What Go's `unicode.ToUpper` and `unicode.ToLower` do on the ASCII characters
(`if r <= MaxASCII` in package `unicode`): `a`..`z` go to `A`..`Z` and back, every
other ASCII character stays. -/
def AgreesOnAscii (unicode : Unicode) : Prop :=
  ∀ c : Char, c.toNat < 128 →
    unicode.ToUpper c = c.toUpper ∧ unicode.ToLower c = c.toLower

/-- The upper-case form of a character is its own upper-case form, as in the case
tables of Unicode. -/
def UpperIdempotent (unicode : Unicode) : Prop :=
  ∀ c : Char, unicode.ToUpper (unicode.ToUpper c) = unicode.ToUpper c

namespace strings

/-- Go `strings.ToUpper`: `unicode.ToUpper` on every character of the string. -/
def ToUpper (unicode : Unicode) (s : String) : String :=
  String.mk (s.data.map unicode.ToUpper)

/-- Go `strings.ToLower`: `unicode.ToLower` on every character of the string. -/
def ToLower (unicode : Unicode) (s : String) : String :=
  String.mk (s.data.map unicode.ToLower)

end strings

/-- Go `type Entry struct { Type string; Value string }`; the field `Type` is
written `Type_`, `Type` being reserved. -/
structure Entry where
  Type_ : String
  Value : String
deriving DecidableEq, Repr

/-- Go `type List struct { Name string; Entry []Entry }`, named `SiteList` here
because `List` is the list type of Lean. -/
structure SiteList where
  Name : String
  Entry : List Entry
deriving DecidableEq, Repr

/-- Go `type ParsedList struct { Name string; Inclusion map[string]bool; Entry []Entry }`. -/
structure ParsedList where
  Name : String
  Inclusion : List String
  Entry : List Entry
deriving DecidableEq, Repr

/-- The registry `ref map[string]*List`. -/
abbrev Registry := List (String × SiteList)

/-- The enum `router.Domain_Type` of the v2ray router protocol. -/
inductive Domain_Type where
  | Plain
  | Regex
  | Domain
  | Full
deriving DecidableEq, Repr

/-- The message `router.Domain`. -/
structure Domain where
  Type_ : Domain_Type
  Value : String
deriving DecidableEq, Repr

/-- The message `router.GeoSite`. -/
structure GeoSite where
  CountryCode : String
  Domain : List Domain
deriving DecidableEq, Repr

/-- The tags that have a `case` in the `switch` of `toProto`. -/
def knownTypes : List String := ["domain", "regex", "keyword", "full"]

/-- The `switch entry.Type` of `toProto` (lines 37-60): the matcher appended for
one entry, or the error returned for it. -/
def toProtoEntry (entry : Entry) : Except String Domain :=
  if entry.Type_ = "domain" then
    .ok { Type_ := Domain_Type.Domain, Value := entry.Value }
  else if entry.Type_ = "regex" then
    .ok { Type_ := Domain_Type.Regex, Value := entry.Value }
  else if entry.Type_ = "keyword" then
    .ok { Type_ := Domain_Type.Plain, Value := entry.Value }
  else if entry.Type_ = "full" then
    .ok { Type_ := Domain_Type.Full, Value := entry.Value }
  else
    .error ("unknown domain type: " ++ entry.Type_)

/-- The `for _, entry := range l.Entry` loop of `toProto`, from the matchers
appended so far. -/
def toProtoLoop (acc : List Domain) : List Entry → Except String (List Domain)
  | [] => .ok acc
  | entry :: rest =>
    match toProtoEntry entry with
    | .ok d => toProtoLoop (acc ++ [d]) rest
    | .error msg => .error msg

/-- Go `func (l *ParsedList) toProto() (*router.GeoSite, error)`. -/
def ParsedList.toProto (l : ParsedList) : Except String GeoSite :=
  match toProtoLoop [] l.Entry with
  | .ok ds => .ok { CountryCode := l.Name, Domain := ds }
  | .error msg => .error msg

/-- The variables of `ParseList` that one pass of the outer loop updates:
`pl.Inclusion`, `newEntryList` and `hasInclude`. -/
structure PassState where
  Inclusion : List String
  newEntryList : List Entry
  hasInclude : Bool
deriving DecidableEq, Repr

/-- The body of `for _, entry := range entryList` in `ParseList` (lines 140-154). -/
def passStep (unicode : Unicode) (ref : Registry) (st : PassState) (entry : Entry) : Except String PassState :=
  if entry.Type_ = "include" then
    if entry.Value ∈ st.Inclusion then
      .ok st
    else
      let refName := strings.ToUpper unicode entry.Value
      match ref.lookup refName with
      | none => .error (entry.Value ++ " not found.")
      | some r =>
        .ok { Inclusion := st.Inclusion.insert refName,
              newEntryList := st.newEntryList ++ r.Entry,
              hasInclude := true }
  else
    .ok { st with newEntryList := st.newEntryList ++ [entry] }

/-- The inner loop `for _, entry := range entryList` of `ParseList`. -/
def pass (unicode : Unicode) (ref : Registry) (st : PassState) : List Entry → Except String PassState
  | [] => .ok st
  | entry :: rest =>
    match passStep unicode ref st entry with
    | .ok st1 => pass unicode ref st1 rest
    | .error msg => .error msg

/-- The outer `for { ... }` loop of `ParseList` (lines 136-160) with a budget of
passes: the result is the final `pl.Inclusion` and `entryList`, an error, or
`none` when the budget is used up before the loop has left. -/
def parseLoop (unicode : Unicode) (ref : Registry) : Nat → List String → List Entry →
    Option (Except String (List String × List Entry))
  | 0, _, _ => none
  | fuel + 1, inclusion, entryList =>
    match pass unicode ref { Inclusion := inclusion, newEntryList := [], hasInclude := false } entryList with
    | .error msg => some (.error msg)
    | .ok st =>
      if st.hasInclude then parseLoop unicode ref fuel st.Inclusion st.newEntryList
      else some (.ok (st.Inclusion, st.newEntryList))

/-- Go `func ParseList(list *List, ref map[string]*List) (*ParsedList, error)`,
run for at most `fuel` passes of its loop. -/
def ParseList (unicode : Unicode) (fuel : Nat) (list : SiteList) (ref : Registry) :
    Option (Except String ParsedList) :=
  match parseLoop unicode ref fuel [] list.Entry with
  | none => none
  | some (.error msg) => some (.error msg)
  | some (.ok (inclusion, entryList)) =>
    some (.ok { Name := list.Name, Inclusion := inclusion, Entry := entryList })

/-- How one entry and the matcher built from it are related. -/
def Classified (e : Entry) (d : Domain) : Prop :=
  d.Value = e.Value ∧
    (e.Type_ = "domain" → d.Type_ = Domain_Type.Domain) ∧
    (e.Type_ = "regex" → d.Type_ = Domain_Type.Regex) ∧
    (e.Type_ = "keyword" → d.Type_ = Domain_Type.Plain) ∧
    (e.Type_ = "full" → d.Type_ = Domain_Type.Full)

/-- A resolved list with one entry of each classifiable tag. -/
def exampleParsed : ParsedList :=
  { Name := "A", Inclusion := ["B"],
    Entry := [⟨"domain", "example.com"⟩, ⟨"keyword", "ads"⟩, ⟨"regex", "a.*b"⟩,
      ⟨"full", "exact.com"⟩] }

/-- An entry as it reaches `toProto` when its tag is spelled in capitals. -/
def exampleUpperTag : ParsedList :=
  { Name := "A", Inclusion := [], Entry := [⟨"REGEX", "a.*b"⟩] }

/-- The registry of the duplicated include line: `A` holds `include:b` twice and
`B` holds `keyword:ads`. -/
def dupRegistry : Registry :=
  [("A", { Name := "A", Entry := [⟨"include", "b"⟩, ⟨"include", "b"⟩] }),
   ("B", { Name := "B", Entry := [⟨"keyword", "ads"⟩] })]

/-- The list `A` of `dupRegistry`. -/
def dupList : SiteList :=
  { Name := "A", Entry := [⟨"include", "b"⟩, ⟨"include", "b"⟩] }

/-- The registry `A = [domain:example.com, include:b]`, `B = [keyword:ads]`. -/
def exampleRegistry : Registry :=
  [("A", { Name := "A", Entry := [⟨"domain", "example.com"⟩, ⟨"include", "b"⟩] }),
   ("B", { Name := "B", Entry := [⟨"keyword", "ads"⟩] })]

/-- The list `A` of `exampleRegistry`. -/
def exampleList : SiteList :=
  { Name := "A", Entry := [⟨"domain", "example.com"⟩, ⟨"include", "b"⟩] }

/-- The registry that holds `A = [include:b]` and no `B`. -/
def missingRegistry : Registry :=
  [("A", { Name := "A", Entry := [⟨"include", "b"⟩] })]

/-- The list `A` of `missingRegistry`. -/
def missingList : SiteList :=
  { Name := "A", Entry := [⟨"include", "b"⟩] }

/-- The names in the Inclusion set are upper-casings (`refName` in `ParseList`)
and names of lists of the registry. -/
def InclusionKeys (unicode : Unicode) (ref : Registry) (incl : List String) : Prop :=
  ∀ x ∈ incl, (∃ v, x = strings.ToUpper unicode v) ∧ ∃ r, ref.lookup x = some r

/-- The include values of the entries are their own upper-casing, so that the
guard `pl.Inclusion[entry.Value]` and the assignment `pl.Inclusion[refName]` of
`ParseList` address the same key. -/
def UpperFixedIncludes (unicode : Unicode) (es : List Entry) : Prop :=
  ∀ e ∈ es, e.Type_ = "include" → strings.ToUpper unicode e.Value = e.Value

/-- The direct 2-cycle `A = [include:b]`, `B = [include:a]`. -/
def cycleRegistry : Registry :=
  [("A", { Name := "A", Entry := [⟨"include", "b"⟩] }),
   ("B", { Name := "B", Entry := [⟨"include", "a"⟩] })]

/-- The list `A` of `cycleRegistry`. -/
def cycleList : SiteList := { Name := "A", Entry := [⟨"include", "b"⟩] }

/-- The direct 2-cycle between lists named by digits: `1 = [include:2]`,
`2 = [include:1]`. -/
def digitCycleRegistry : Registry :=
  [("1", { Name := "1", Entry := [⟨"include", "2"⟩] }),
   ("2", { Name := "2", Entry := [⟨"include", "1"⟩] })]

/-- The list `1` of `digitCycleRegistry`. -/
def digitCycleList : SiteList := { Name := "1", Entry := [⟨"include", "2"⟩] }

/-- The state of a pass over upper-fixed includes: the Inclusion set stays a
repetition-free set of registry keys that only grows, and grows strictly once an
include has been expanded. -/
def PassGrows (unicode : Unicode) (ref : Registry) (incl : List String) (s : PassState) : Prop :=
  s.Inclusion.Nodup ∧ InclusionKeys unicode ref s.Inclusion ∧
    incl.length ≤ s.Inclusion.length ∧
    (s.hasInclude = true → incl.length < s.Inclusion.length) ∧
    UpperFixedIncludes unicode s.newEntryList

/-- The entries hold an include entry that refers to the list named `b`
(`refName` in `ParseList`). -/
def Includes (unicode : Unicode) (es : List Entry) (b : String) : Prop :=
  ∃ e ∈ es, e.Type_ = "include" ∧ strings.ToUpper unicode e.Value = b

/-- An edge of the include graph of the registry: the list stored under `a`
holds an include entry that refers to `b`. -/
def IncludeEdge (unicode : Unicode) (ref : Registry) (a b : String) : Prop :=
  ∃ r, ref.lookup a = some r ∧ Includes unicode r.Entry b

/-- The names that the includes of `list` reach in the include graph. -/
def Reachable (unicode : Unicode) (ref : Registry) (list : SiteList) (b : String) : Prop :=
  ∃ a, Includes unicode list.Entry a ∧ Relation.ReflTransGen (IncludeEdge unicode ref) a b

/-- The include graph reachable from `list` has no cycle. -/
def Acyclic (unicode : Unicode) (ref : Registry) (list : SiteList) : Prop :=
  ∀ b, Reachable unicode ref list b → ¬ Relation.TransGen (IncludeEdge unicode ref) b b

/-- The includes of `es` nest at most `d` lists deep below `es`: with `d = 0`
no include of `es` names a list of the registry. -/
def depthLe (unicode : Unicode) (ref : Registry) : Nat → List Entry → Prop
  | 0, es => ∀ e ∈ es, e.Type_ = "include" → ref.lookup (strings.ToUpper unicode e.Value) = none
  | d + 1, es => ∀ e ∈ es, e.Type_ = "include" →
      ∀ r, ref.lookup (strings.ToUpper unicode e.Value) = some r → depthLe unicode ref d r.Entry

/-- The in-order substitution of the includes of a list, the flattening of an
included list being given by `sub`: an include entry is replaced in place by
`sub` of the list it names (looked up by upper-cased name), every other entry is
kept. It fails when an include names no list or `sub` fails. -/
def flattenWith (unicode : Unicode) (ref : Registry) (sub : List Entry → Option (List Entry)) :
    List Entry → Option (List Entry)
  | [] => some []
  | e :: rest =>
    if e.Type_ = "include" then
      match ref.lookup (strings.ToUpper unicode e.Value) with
      | none => none
      | some r =>
        match sub r.Entry, flattenWith unicode ref sub rest with
        | some a, some b => some (a ++ b)
        | _, _ => none
    else
      match flattenWith unicode ref sub rest with
      | some b => some (e :: b)
      | none => none

/-- The recursive in-order depth-first flattening of the specification, for
includes nested at most `d` deep: each include entry is replaced in place by the
flattening of the list it names. -/
def flatten (unicode : Unicode) (ref : Registry) : Nat → List Entry → Option (List Entry)
  | 0 => flattenWith unicode ref (fun _ => none)
  | d + 1 => flattenWith unicode ref (flatten unicode ref d)

/-- The names referred to by the include occurrences met while flattening, in
the order of the flattening, the occurrences inside an included list being given
by `sub`. -/
def referencedWith (unicode : Unicode) (ref : Registry) (sub : List Entry → List String) :
    List Entry → List String
  | [] => []
  | e :: rest =>
    if e.Type_ = "include" then
      match ref.lookup (strings.ToUpper unicode e.Value) with
      | none => strings.ToUpper unicode e.Value :: referencedWith unicode ref sub rest
      | some r => strings.ToUpper unicode e.Value :: (sub r.Entry ++ referencedWith unicode ref sub rest)
    else
      referencedWith unicode ref sub rest

/-- The names referred to by the include occurrences reachable from the entries
through at most `d` nested lists, one name per occurrence. -/
def referenced (unicode : Unicode) (ref : Registry) : Nat → List Entry → List String
  | 0 => referencedWith unicode ref (fun _ => [])
  | d + 1 => referencedWith unicode ref (referenced unicode ref d)

/-- The names referred to by the include entries of the list itself. -/
def directNames (unicode : Unicode) : List Entry → List String
  | [] => []
  | e :: rest =>
    if e.Type_ = "include" then strings.ToUpper unicode e.Value :: directNames unicode rest
    else directNames unicode rest

/-- The entry list that one pass of `ParseList` builds when it expands every
include entry: each include is replaced by the entries of the list it names. -/
def expandOnce (unicode : Unicode) (ref : Registry) : List Entry → List Entry
  | [] => []
  | e :: rest =>
    if e.Type_ = "include" then
      match ref.lookup (strings.ToUpper unicode e.Value) with
      | none => expandOnce unicode ref rest
      | some r => r.Entry ++ expandOnce unicode ref rest
    else
      e :: expandOnce unicode ref rest

/-- Every include entry of the list names a list of the registry. -/
def AllResolve (unicode : Unicode) (ref : Registry) (es : List Entry) : Prop :=
  ∀ e ∈ es, e.Type_ = "include" → ∃ r, ref.lookup (strings.ToUpper unicode e.Value) = some r

/-- A registry with nested includes: `A` includes `B` between two rules, `B`
includes `C`. -/
def nestedRegistry : Registry :=
  [("A", { Name := "A", Entry := [⟨"domain", "a.com"⟩, ⟨"include", "b"⟩, ⟨"full", "z.com"⟩] }),
   ("B", { Name := "B", Entry := [⟨"include", "c"⟩, ⟨"keyword", "ads"⟩] }),
   ("C", { Name := "C", Entry := [⟨"regex", "c.*"⟩] })]

/-- The list `A` of `nestedRegistry`. -/
def nestedList : SiteList :=
  { Name := "A", Entry := [⟨"domain", "a.com"⟩, ⟨"include", "b"⟩, ⟨"full", "z.com"⟩] }

/-- The pieces of a character sequence between the occurrences of `sep`: one
piece more than there are occurrences. -/
def splitChars (sep : Char) : List Char → List (List Char)
  | [] => [[]]
  | c :: cs =>
    if c = sep then [] :: splitChars sep cs
    else
      match splitChars sep cs with
      | [] => [[c]]
      | p :: ps => (c :: p) :: ps

/-- Go `strings.Split(s, sep)` for a separator of one character. -/
def strings.Split (s : String) (sep : Char) : List String :=
  (splitChars sep s.data).map String.mk

/-- Go `func parseEntry(line string) (Entry, error)`: the cases `len(kv) == 1`
and `len(kv) == 2` are the list patterns of one and of two pieces. -/
def parseEntry (unicode : Unicode) (line : String) : Except String Entry :=
  match strings.Split line ':' with
  | [k] => .ok { Type_ := "domain", Value := k }
  | [k, v] => .ok { Type_ := strings.ToLower unicode k, Value := strings.ToLower unicode v }
  | _ => .error ("Invalid format: " ++ line)

/-- The registry `A = [domain:x, include:b]`, `B = [domain:x]`: the included
list contributes a rule that the including list holds itself. -/
def sameRuleRegistry : Registry :=
  [("A", { Name := "A", Entry := [⟨"domain", "x"⟩, ⟨"include", "b"⟩] }),
   ("B", { Name := "B", Entry := [⟨"domain", "x"⟩] })]

/-- The list `A` of `sameRuleRegistry`. -/
def sameRuleList : SiteList :=
  { Name := "A", Entry := [⟨"domain", "x"⟩, ⟨"include", "b"⟩] }

/-- The entries of a list other than its include entries, in their order. -/
def ownRules (es : List Entry) : List Entry :=
  es.filter (fun e => decide (e.Type_ ≠ "include"))

/-- The entry is an entry of the source list, or of a list of the registry whose
name is in the Inclusion set `incl`. -/
def FromSource (ref : Registry) (list : SiteList) (incl : List String) (e : Entry) : Prop :=
  e ∈ list.Entry ∨ ∃ k ∈ incl, ∃ r, ref.lookup k = some r ∧ e ∈ r.Entry

/-- The states that a run of `ParseList` on `list` goes through: `Running st es`
says that the inner loop stands before the entries `es` with the variables `st`.
The run starts a first pass over the entries of the list, moves over one entry
by the loop body, and starts another pass when a pass ends with `hasInclude`. -/
inductive Running (unicode : Unicode) (ref : Registry) (list : SiteList) : PassState → List Entry → Prop
  | start : Running unicode ref list { Inclusion := [], newEntryList := [], hasInclude := false }
      list.Entry
  | step {st st1 : PassState} {e : Entry} {rest : List Entry} :
      Running unicode ref list st (e :: rest) → passStep unicode ref st e = .ok st1 →
      Running unicode ref list st1 rest
  | again {st : PassState} :
      Running unicode ref list st [] → st.hasInclude = true →
      Running unicode ref list { Inclusion := st.Inclusion, newEntryList := [], hasInclude := false }
        st.newEntryList

/-- The variables of `ParseList` on `dupList` after the first `include:b` has
been expanded. -/
def dupSecondState : PassState :=
  { Inclusion := ["B"], newEntryList := [⟨"keyword", "ads"⟩], hasInclude := true }

/-- The message `router.GeoSiteList`. -/
structure GeoSiteList where
  Entry : List GeoSite
deriving DecidableEq, Repr

/-- The assignment `ref[list.Name] = list` of `main` (line 184): the list is
stored under its own name and replaces a list stored there before. -/
def register (ref : Registry) (list : SiteList) : Registry :=
  (list.Name, list) :: ref.filter (fun p => decide (p.1 ≠ list.Name))

/-- The registries that `main` builds: one list per key, each stored under its
own name. -/
def RegistryOfMain (ref : Registry) : Prop :=
  (ref.map Prod.fst).Nodup ∧ ∀ p ∈ ref, p.2.Name = p.1

/-- The body of the build loop of `main` up to the `append` (lines 193-202):
`ParseList` on the list, then `toProto` on its result; the error is the message
that `main` prints before it returns. -/
def siteOf (unicode : Unicode) (fuel : Nat) (ref : Registry) (list : SiteList) : Option (Except String GeoSite) :=
  match ParseList unicode fuel list ref with
  | none => none
  | some (.error msg) => some (.error msg)
  | some (.ok pl) => some pl.toProto

/-- The loop `for _, list := range ref` of `main` (lines 192-204) from the groups
appended so far. Go leaves the order in which `range` yields the entries of a map
open, so the loop runs over `order`, the entries of the map in the order of this
run. -/
def buildLoop (unicode : Unicode) (fuel : Nat) (ref : Registry) (acc : List GeoSite) :
    List (String × SiteList) → Option (Except String (List GeoSite))
  | [] => some (.ok acc)
  | p :: rest =>
    match siteOf unicode fuel ref p.2 with
    | none => none
    | some (.error msg) => some (.error msg)
    | some (.ok site) => buildLoop unicode fuel ref (acc ++ [site]) rest

/-- The container `protoList` of `main` after the build loop (lines 191-204), or
the error on which `main` returns. -/
def build (unicode : Unicode) (fuel : Nat) (order : List (String × SiteList)) (ref : Registry) :
    Option (Except String GeoSiteList) :=
  match buildLoop unicode fuel ref [] order with
  | none => none
  | some (.error msg) => some (.error msg)
  | some (.ok groups) => some (.ok { Entry := groups })

/-- The part of `main` from the build loop to the bytes handed to
`ioutil.WriteFile` (lines 191-211); `marshal` stands for `proto.Marshal`, which
is called on the finished container only. -/
def mainOutput (unicode : Unicode) {β : Type} (marshal : GeoSiteList → Except String β) (fuel : Nat)
    (order : List (String × SiteList)) (ref : Registry) : Option (Except String β) :=
  match build unicode fuel order ref with
  | none => none
  | some (.error msg) => some (.error msg)
  | some (.ok protoList) => some (marshal protoList)

/-- The group that the loop body yields, when it yields one. -/
def okSite (r : Option (Except String GeoSite)) : Option GeoSite :=
  match r with
  | some (.ok g) => some g
  | _ => none

/-- The container built from `exampleRegistry` when the iteration yields `A`
before `B`. -/
def exampleContainer : GeoSiteList :=
  { Entry :=
      [{ CountryCode := "A",
         Domain := [⟨Domain_Type.Domain, "example.com"⟩, ⟨Domain_Type.Plain, "ads"⟩] },
       { CountryCode := "B", Domain := [⟨Domain_Type.Plain, "ads"⟩] }] }

/-- The container built from `exampleRegistry` when the iteration yields `B`
before `A`. -/
def exampleContainerReversed : GeoSiteList :=
  { Entry :=
      [{ CountryCode := "B", Domain := [⟨Domain_Type.Plain, "ads"⟩] },
       { CountryCode := "A",
         Domain := [⟨Domain_Type.Domain, "example.com"⟩, ⟨Domain_Type.Plain, "ads"⟩] }] }

/-- Modelled from the spec: the base-128 length and number prefix of the
"length-prefixed, field-tagged binary encoding" of §6, which `proto.Marshal`
provides and `main.go` does not contain. The number is written seven bits at a
time, lowest first, every byte but the last marked by adding 128; `fuel` bounds
the number of bytes. -/
def varintAux : Nat → Nat → List Nat
  | 0, n => [n % 128]
  | fuel + 1, n => if n < 128 then [n] else (128 + n % 128) :: varintAux fuel (n / 128)

/-- Modelled from the spec: the prefix bytes of a number (see `varintAux`). -/
def encodeVarint (n : Nat) : List Nat := varintAux n n

/-- Modelled from the spec: reading back a prefix written by `encodeVarint`,
with the bytes that follow it. -/
def decodeVarint : List Nat → Option (Nat × List Nat)
  | [] => none
  | b :: bs =>
    if b < 128 then some (b, bs)
    else
      match decodeVarint bs with
      | some (m, rest) => some ((b - 128) + 128 * m, rest)
      | none => none

/-- Modelled from the spec: the bytes that stand for one character of a "string"
field in the encoding of §6, in UTF-8. -/
def utf8Char (c : Char) : List Nat :=
  let n := c.toNat
  if n < 128 then [n]
  else if n < 2048 then [192 + n / 64, 128 + n % 64]
  else if n < 65536 then [224 + n / 4096, 128 + n / 64 % 64, 128 + n % 64]
  else [240 + n / 262144, 128 + n / 4096 % 64, 128 + n / 64 % 64, 128 + n % 64]

/-- Modelled from the spec: the bytes of a "string" field (group name, matcher
value) of §6. -/
def utf8Bytes (s : String) : List Nat := s.data.flatMap utf8Char

/-- Modelled from the spec: reading the characters back from the bytes of a
"string" field; `fuel` bounds the number of characters. -/
def utf8DecodeAux : Nat → List Nat → Option (List Char)
  | _, [] => some []
  | 0, _ :: _ => none
  | fuel + 1, b0 :: rest =>
    if b0 < 128 then
      (utf8DecodeAux fuel rest).map (fun cs => Char.ofNat b0 :: cs)
    else if b0 < 224 then
      match rest with
      | b1 :: rest1 =>
        (utf8DecodeAux fuel rest1).map
          (fun cs => Char.ofNat ((b0 - 192) * 64 + (b1 - 128)) :: cs)
      | _ => none
    else if b0 < 240 then
      match rest with
      | b1 :: b2 :: rest2 =>
        (utf8DecodeAux fuel rest2).map
          (fun cs => Char.ofNat ((b0 - 224) * 4096 + (b1 - 128) * 64 + (b2 - 128)) :: cs)
      | _ => none
    else
      match rest with
      | b1 :: b2 :: b3 :: rest3 =>
        (utf8DecodeAux fuel rest3).map
          (fun cs => Char.ofNat
            ((b0 - 240) * 262144 + (b1 - 128) * 4096 + (b2 - 128) * 64 + (b3 - 128)) :: cs)
      | _ => none

/-- Modelled from the spec: the string that the bytes of a "string" field stand
for. -/
def utf8Decode (bs : List Nat) : Option String :=
  (utf8DecodeAux bs.length bs).map String.mk

/-- Modelled from the spec: the content of one field of the "field-tagged"
encoding of §6, a number (the "type enum field") or a length-prefixed run of
bytes (a "string" field or a sub-message). -/
inductive WireValue where
  | varint (n : Nat)
  | bytes (b : List Nat)
deriving DecidableEq, Repr

/-- Modelled from the spec: one field of the "length-prefixed, field-tagged"
encoding of §6: the tag, made of the field number and the kind of content, then
the number, or the length followed by the bytes. -/
def encodeField : Nat × WireValue → List Nat
  | (f, .varint n) => encodeVarint (f * 8) ++ encodeVarint n
  | (f, .bytes b) => encodeVarint (f * 8 + 2) ++ (encodeVarint b.length ++ b)

/-- Modelled from the spec: a message of §6 is the sequence of its fields. -/
def encodeFields (fs : List (Nat × WireValue)) : List Nat := fs.flatMap encodeField

/-- Modelled from the spec: reading the fields of a message back, one field per
unit of `fuel`. -/
def parseFields : Nat → List Nat → Option (List (Nat × WireValue))
  | 0, bs => if bs = [] then some [] else none
  | fuel + 1, bs =>
    if bs = [] then some []
    else
      match decodeVarint bs with
      | none => none
      | some (tag, rest) =>
        if tag % 8 = 0 then
          match decodeVarint rest with
          | none => none
          | some (n, rest1) =>
            (parseFields fuel rest1).map (fun fs => (tag / 8, WireValue.varint n) :: fs)
        else if tag % 8 = 2 then
          match decodeVarint rest with
          | none => none
          | some (len, rest1) =>
            if len ≤ rest1.length then
              (parseFields fuel (rest1.drop len)).map
                (fun fs => (tag / 8, WireValue.bytes (rest1.take len)) :: fs)
            else none
        else none

/-- Modelled from the spec: the number that stands for a matcher kind in the
"type enum field" of §6, the position of the kind in `router.Domain_Type`. -/
def Domain_Type.toNat : Domain_Type → Nat
  | Domain_Type.Plain => 0
  | Domain_Type.Regex => 1
  | Domain_Type.Domain => 2
  | Domain_Type.Full => 3

/-- Modelled from the spec: the matcher kind that a number of the "type enum
field" stands for. -/
def Domain_Type.ofNat? : Nat → Option Domain_Type
  | 0 => some Domain_Type.Plain
  | 1 => some Domain_Type.Regex
  | 2 => some Domain_Type.Domain
  | 3 => some Domain_Type.Full
  | _ => none

/-- Modelled from the spec: the fields of a matcher sub-message of §6, "a type
enum field and a string value field". -/
def domainFields (d : Domain) : List (Nat × WireValue) :=
  [(1, WireValue.varint d.Type_.toNat), (2, WireValue.bytes (utf8Bytes d.Value))]

/-- Modelled from the spec: the bytes of a matcher sub-message. -/
def encodeDomain (d : Domain) : List Nat := encodeFields (domainFields d)

/-- Modelled from the spec: the fields of the message of one group in §6, "field
1 = group name string, field 2 = repeated matcher sub-messages". -/
def geoSiteFields (g : GeoSite) : List (Nat × WireValue) :=
  (1, WireValue.bytes (utf8Bytes g.CountryCode)) ::
    g.Domain.map (fun d => (2, WireValue.bytes (encodeDomain d)))

/-- Modelled from the spec: the bytes of the message of one group. -/
def encodeGeoSite (g : GeoSite) : List Nat := encodeFields (geoSiteFields g)

/-- Modelled from the spec: the fields of the container of §6, one message per
group ("message-per-group"), in the order of the groups. -/
def geoSiteListFields (c : GeoSiteList) : List (Nat × WireValue) :=
  c.Entry.map (fun g => (1, WireValue.bytes (encodeGeoSite g)))

/-- Modelled from the spec: `proto.Marshal` on the container, which `main` calls
and `main.go` does not contain, as the "length-prefixed, field-tagged binary
encoding" of §6. -/
def Marshal (c : GeoSiteList) : List Nat := encodeFields (geoSiteListFields c)

/-- Modelled from the spec: a matcher read from the fields of its sub-message;
a field that is not one of the two of §6 is passed over. -/
def readDomain : Domain → List (Nat × WireValue) → Option Domain
  | d, [] => some d
  | d, (f, v) :: fs =>
    match f, v with
    | 1, WireValue.varint n =>
      match Domain_Type.ofNat? n with
      | some t => readDomain { d with Type_ := t } fs
      | none => none
    | 2, WireValue.bytes b =>
      match utf8Decode b with
      | some s => readDomain { d with Value := s } fs
      | none => none
    | _, _ => readDomain d fs

/-- Modelled from the spec: decoding a matcher sub-message. -/
def decodeDomain (bs : List Nat) : Option Domain :=
  match parseFields bs.length bs with
  | some fs => readDomain { Type_ := Domain_Type.Plain, Value := "" } fs
  | none => none

/-- Modelled from the spec: a group read from the fields of its message; the
matchers are appended in the order of their fields. -/
def readGeoSite : GeoSite → List (Nat × WireValue) → Option GeoSite
  | g, [] => some g
  | g, (f, v) :: fs =>
    match f, v with
    | 1, WireValue.bytes b =>
      match utf8Decode b with
      | some s => readGeoSite { g with CountryCode := s } fs
      | none => none
    | 2, WireValue.bytes b =>
      match decodeDomain b with
      | some d => readGeoSite { g with Domain := g.Domain ++ [d] } fs
      | none => none
    | _, _ => readGeoSite g fs

/-- Modelled from the spec: decoding the message of one group. -/
def decodeGeoSite (bs : List Nat) : Option GeoSite :=
  match parseFields bs.length bs with
  | some fs => readGeoSite { CountryCode := "", Domain := [] } fs
  | none => none

/-- Modelled from the spec: a container read from its fields; the groups are
appended in the order of their fields. -/
def readGeoSiteList : GeoSiteList → List (Nat × WireValue) → Option GeoSiteList
  | c, [] => some c
  | c, (f, v) :: fs =>
    match f, v with
    | 1, WireValue.bytes b =>
      match decodeGeoSite b with
      | some g => readGeoSiteList { Entry := c.Entry ++ [g] } fs
      | none => none
    | _, _ => readGeoSiteList c fs

/-- Modelled from the spec: the decoder of §6 and §8 ("decoding the produced
bytes yields a Container"), which `main.go` does not contain. -/
def Unmarshal (bs : List Nat) : Option GeoSiteList :=
  match parseFields bs.length bs with
  | some fs => readGeoSiteList { Entry := [] } fs
  | none => none

/-- The non-include entries of the list stored under the name `k`, none when no
list is stored there. -/
def ownRulesOf (ref : Registry) (k : String) : List Entry :=
  match ref.lookup k with
  | some r => ownRules r.Entry
  | none => []

/-- A case mapping that, beyond the ASCII letters, maps `é` to `É` and back, as
Go does. -/
def latin : Unicode :=
  { ToUpper := fun c => if c = 'é' then 'É' else c.toUpper,
    ToLower := fun c => if c = 'É' then 'é' else c.toLower }

/-- The registry `A = [include:é]`, `É = [keyword:ads]`. -/
def accentRegistry : Registry :=
  [("A", { Name := "A", Entry := [⟨"include", "é"⟩] }),
   ("É", { Name := "É", Entry := [⟨"keyword", "ads"⟩] })]

/-- The registry `É = [include:é]`: a list that includes itself. -/
def accentLoopRegistry : Registry :=
  [("É", { Name := "É", Entry := [⟨"include", "é"⟩] })]

variable {unicode : Unicode}

/-! ## Case mappings -/

theorem Char_toUpper_toUpper (c : Char) : c.toUpper.toUpper = c.toUpper := by
  unfold Char.toUpper
  simp only []
  by_cases h : c.toNat ≥ 97 ∧ c.toNat ≤ 122
  · rw [if_pos h]
    have key : ∀ n, 97 ≤ n → n ≤ 122 →
        ¬ ((Char.ofNat (n - 32)).toNat ≥ 97 ∧ (Char.ofNat (n - 32)).toNat ≤ 122) := by
      intro n hn1 hn2
      interval_cases n <;> decide
    rw [if_neg (key _ h.1 h.2)]
  · rw [if_neg h, if_neg h]

theorem Char_isUpper_iff (c : Char) : c.isUpper = true ↔ (65 ≤ c.toNat ∧ c.toNat ≤ 90) := by
  simp only [Char.isUpper, Bool.and_eq_true, decide_eq_true_eq, Char.toNat, ge_iff_le,
    UInt32.le_def, BitVec.le_def]
  rfl

theorem Char_isLower_iff (c : Char) : c.isLower = true ↔ (97 ≤ c.toNat ∧ c.toNat ≤ 122) := by
  simp only [Char.isLower, Bool.and_eq_true, decide_eq_true_eq, Char.toNat, ge_iff_le,
    UInt32.le_def, BitVec.le_def]
  rfl

/-- Lower-casing leaves exactly the characters other than `A`..`Z` unchanged. -/
theorem Char_toLower_eq_self_iff (c : Char) : c.toLower = c ↔ c.isUpper = false := by
  have hval := Char_isUpper_iff c
  unfold Char.toLower
  simp only []
  by_cases h : c.toNat ≥ 65 ∧ c.toNat ≤ 90
  · rw [if_pos h]
    have hup : c.isUpper = true := hval.2 h
    simp only [hup, Bool.true_eq_false, iff_false]
    intro heq
    have key : ∀ n, 65 ≤ n → n ≤ 90 → (Char.ofNat (n + 32)).toNat ≠ n := by
      intro n h1 h2
      interval_cases n <;> decide
    exact key _ h.1 h.2 (congrArg Char.toNat heq)
  · rw [if_neg h]
    simp only [true_iff]
    cases hu : c.isUpper with
    | false => rfl
    | true => exact absurd (hval.1 hu) h

/-- Upper-casing leaves exactly the characters other than `a`..`z` unchanged. -/
theorem Char_toUpper_eq_self_iff (c : Char) : c.toUpper = c ↔ c.isLower = false := by
  have hval := Char_isLower_iff c
  unfold Char.toUpper
  simp only []
  by_cases h : c.toNat ≥ 97 ∧ c.toNat ≤ 122
  · rw [if_pos h]
    have hlow : c.isLower = true := hval.2 h
    simp only [hlow, Bool.true_eq_false, iff_false]
    intro heq
    have key : ∀ n, 97 ≤ n → n ≤ 122 → (Char.ofNat (n - 32)).toNat ≠ n := by
      intro n h1 h2
      interval_cases n <;> decide
    exact key _ h.1 h.2 (congrArg Char.toNat heq)
  · rw [if_neg h]
    simp only [true_iff]
    cases hu : c.isLower with
    | false => rfl
    | true => exact absurd (hval.1 hu) h

theorem map_eq_self_iff {α : Type} (f : α → α) (l : List α) :
    l.map f = l ↔ ∀ a ∈ l, f a = a := by
  induction l with
  | nil => simp
  | cons a l ih => simp [ih]

theorem ascii_AgreesOnAscii : AgreesOnAscii ascii := fun _ _ => ⟨rfl, rfl⟩

theorem ascii_UpperIdempotent : UpperIdempotent ascii := Char_toUpper_toUpper

theorem ToUpper_ToUpper (h : UpperIdempotent unicode) (s : String) :
    strings.ToUpper unicode (strings.ToUpper unicode s) = strings.ToUpper unicode s := by
  have hc : unicode.ToUpper ∘ unicode.ToUpper = unicode.ToUpper := funext h
  simp [strings.ToUpper, hc]

/-- Lower-casing leaves a string unchanged exactly when it leaves each of its
characters unchanged. -/
theorem ToLower_eq_self_iff (s : String) :
    strings.ToLower unicode s = s ↔ ∀ c ∈ s.data, unicode.ToLower c = c := by
  rw [← map_eq_self_iff]
  constructor
  · intro h
    have := congrArg String.data h
    simpa [strings.ToLower] using this
  · intro h
    simp only [strings.ToLower, h]

/-- Upper-casing leaves a string unchanged exactly when it leaves each of its
characters unchanged. -/
theorem ToUpper_eq_self_iff (s : String) :
    strings.ToUpper unicode s = s ↔ ∀ c ∈ s.data, unicode.ToUpper c = c := by
  rw [← map_eq_self_iff]
  constructor
  · intro h
    have := congrArg String.data h
    simpa [strings.ToUpper] using this
  · intro h
    simp only [strings.ToUpper, h]

/-- Lower-casing leaves ASCII text without `A`..`Z` unchanged. -/
theorem ToLower_ascii_fixed (h : AgreesOnAscii unicode) (s : String)
    (hs : ∀ c ∈ s.data, c.toNat < 128 ∧ c.toLower = c) : strings.ToLower unicode s = s := by
  rw [ToLower_eq_self_iff]
  intro c hc
  rw [(h c (hs c hc).1).2]
  exact (hs c hc).2

/-- Upper-casing changes every string that holds a letter of `a`..`z`. -/
theorem ToUpper_ne_of_lower (h : AgreesOnAscii unicode) (s : String)
    (hs : ∃ c ∈ s.data, c.isLower = true) : strings.ToUpper unicode s ≠ s := by
  obtain ⟨c, hc, hlow⟩ := hs
  intro heq
  have hfix := (ToUpper_eq_self_iff s).1 heq c hc
  have hlt : c.toNat < 128 := by
    have := (Char_isLower_iff c).1 hlow
    omega
  rw [(h c hlt).1] at hfix
  have := (Char_toUpper_eq_self_iff c).1 hfix
  rw [hlow] at this
  cases this

/-- The four tags of `toProto` are their own lower-casing. -/
theorem ToLower_knownTypes (h : AgreesOnAscii unicode) (t : String) (ht : t ∈ knownTypes) :
    strings.ToLower unicode t = t := by
  simp only [knownTypes, List.mem_cons, List.mem_singleton, List.not_mem_nil, or_false] at ht
  rcases ht with rfl | rfl | rfl | rfl <;>
    exact ToLower_ascii_fixed h _ (by decide)

/-! ## Classification: `toProto` -/

theorem toProtoEntry_known (e : Entry) (h : e.Type_ ∈ knownTypes) :
    ∃ d, toProtoEntry e = .ok d ∧ d.Value = e.Value ∧
      (e.Type_ = "domain" → d.Type_ = Domain_Type.Domain) ∧
      (e.Type_ = "regex" → d.Type_ = Domain_Type.Regex) ∧
      (e.Type_ = "keyword" → d.Type_ = Domain_Type.Plain) ∧
      (e.Type_ = "full" → d.Type_ = Domain_Type.Full) := by
  simp only [knownTypes, List.mem_cons, List.mem_singleton, List.not_mem_nil, or_false] at h
  rcases h with h | h | h | h <;> simp [toProtoEntry, h]

theorem toProtoEntry_unknown (e : Entry) (h : e.Type_ ∉ knownTypes) :
    toProtoEntry e = .error ("unknown domain type: " ++ e.Type_) := by
  simp only [knownTypes, List.mem_cons, List.mem_singleton, List.not_mem_nil, or_false,
    not_or] at h
  simp [toProtoEntry, h.1, h.2.1, h.2.2.1, h.2.2.2]

theorem toProtoLoop_known (es : List Entry) :
    ∀ acc : List Domain, (∀ e ∈ es, e.Type_ ∈ knownTypes) →
      ∃ ds, toProtoLoop acc es = .ok (acc ++ ds) ∧ List.Forall₂ Classified es ds := by
  induction es with
  | nil => intro acc _; exact ⟨[], by simp [toProtoLoop], List.Forall₂.nil⟩
  | cons e rest ih =>
    intro acc h
    obtain ⟨d, hd, hcl⟩ := toProtoEntry_known e (h e (List.mem_cons_self _ _))
    obtain ⟨ds, hds, hrel⟩ := ih (acc ++ [d]) (fun x hx => h x (List.mem_cons_of_mem _ hx))
    refine ⟨d :: ds, ?_, List.Forall₂.cons hcl hrel⟩
    simp [toProtoLoop, hd, hds]

theorem toProtoLoop_first_unknown (pre : List Entry) (e : Entry) (post : List Entry) :
    ∀ acc : List Domain, (∀ x ∈ pre, x.Type_ ∈ knownTypes) → e.Type_ ∉ knownTypes →
      toProtoLoop acc (pre ++ e :: post) = .error ("unknown domain type: " ++ e.Type_) := by
  induction pre with
  | nil =>
    intro acc _ he
    simp [toProtoLoop, toProtoEntry_unknown e he]
  | cons x rest ih =>
    intro acc h he
    obtain ⟨d, hd, _⟩ := toProtoEntry_known x (h x (List.mem_cons_self _ _))
    have := ih (acc ++ [d]) (fun y hy => h y (List.mem_cons_of_mem _ hy)) he
    simp [toProtoLoop, hd, this]

/-- Every list either has only known tags or splits at its first unknown tag. -/
theorem first_unknown_split (es : List Entry) :
    (∀ e ∈ es, e.Type_ ∈ knownTypes) ∨
      ∃ pre e post, es = pre ++ e :: post ∧ (∀ x ∈ pre, x.Type_ ∈ knownTypes) ∧
        e.Type_ ∉ knownTypes := by
  induction es with
  | nil => left; simp
  | cons x rest ih =>
    by_cases hx : x.Type_ ∈ knownTypes
    · rcases ih with h | ⟨pre, e, post, h1, h2, h3⟩
      · left
        intro e he
        rcases List.mem_cons.1 he with rfl | he
        · exact hx
        · exact h e he
      · right
        refine ⟨x :: pre, e, post, by simp [h1], ?_, h3⟩
        intro y hy
        rcases List.mem_cons.1 hy with rfl | hy
        · exact hx
        · exact h2 y hy
    · right
      exact ⟨[], x, rest, rfl, by simp, hx⟩

/-- C7. For a ParsedList whose entries all carry one of the tags domain, regex,
keyword, full, toProto succeeds; the group is named after the list, has one
matcher per entry in entry order, each matcher carries the value of its entry
unchanged, and its kind is Domain_Domain for domain, Domain_Regex for regex,
Domain_Plain for keyword, Domain_Full for full; these four kinds are pairwise
distinct. -/
theorem C7_toProto_known_tags (l : ParsedList)
    (h : ∀ e ∈ l.Entry, e.Type_ ∈ knownTypes) :
    ∃ site, l.toProto = .ok site ∧ site.CountryCode = l.Name ∧
      site.Domain.length = l.Entry.length ∧
      (∀ (i : Nat) (hi : i < l.Entry.length) (hj : i < site.Domain.length),
        (site.Domain.get ⟨i, hj⟩).Value = (l.Entry.get ⟨i, hi⟩).Value ∧
        ((l.Entry.get ⟨i, hi⟩).Type_ = "domain" →
          (site.Domain.get ⟨i, hj⟩).Type_ = Domain_Type.Domain) ∧
        ((l.Entry.get ⟨i, hi⟩).Type_ = "regex" →
          (site.Domain.get ⟨i, hj⟩).Type_ = Domain_Type.Regex) ∧
        ((l.Entry.get ⟨i, hi⟩).Type_ = "keyword" →
          (site.Domain.get ⟨i, hj⟩).Type_ = Domain_Type.Plain) ∧
        ((l.Entry.get ⟨i, hi⟩).Type_ = "full" →
          (site.Domain.get ⟨i, hj⟩).Type_ = Domain_Type.Full)) ∧
      Domain_Type.Domain ≠ Domain_Type.Regex ∧ Domain_Type.Domain ≠ Domain_Type.Plain ∧
      Domain_Type.Domain ≠ Domain_Type.Full ∧ Domain_Type.Regex ≠ Domain_Type.Plain ∧
      Domain_Type.Regex ≠ Domain_Type.Full ∧ Domain_Type.Plain ≠ Domain_Type.Full := by
  obtain ⟨ds, hds, hrel⟩ := toProtoLoop_known l.Entry [] h
  obtain ⟨hlen, hget⟩ := List.forall₂_iff_get.1 hrel
  refine ⟨{ CountryCode := l.Name, Domain := ds }, ?_, rfl, hlen.symm, ?_, by decide, by decide,
    by decide, by decide, by decide, by decide⟩
  · simp [ParsedList.toProto, hds]
  · intro i hi hj
    exact hget i hi hj

theorem C7_toProto_known_tags_witness :
    (∀ e ∈ exampleParsed.Entry, e.Type_ ∈ knownTypes) ∧
      ∃ site, exampleParsed.toProto = .ok site ∧ site.CountryCode = "A" ∧
        site.Domain.length = 4 :=
  ⟨by decide,
    (C7_toProto_known_tags exampleParsed (by decide)).imp
      (fun _ hs => ⟨hs.1, hs.2.1, hs.2.2.1⟩)⟩

/-- C8. toProto returns an error exactly when some entry carries a tag other
than domain, regex, keyword, full; then no group is returned, and the error
message names the tag of the first such entry in entry order. -/
theorem C8_toProto_error_iff_unknown_tag (l : ParsedList) :
    ((∃ msg, l.toProto = .error msg) ↔ ∃ e ∈ l.Entry, e.Type_ ∉ knownTypes) ∧
    ((∃ e ∈ l.Entry, e.Type_ ∉ knownTypes) → ∀ site, l.toProto ≠ .ok site) ∧
    (∀ pre e post, l.Entry = pre ++ e :: post → (∀ x ∈ pre, x.Type_ ∈ knownTypes) →
      e.Type_ ∉ knownTypes → l.toProto = .error ("unknown domain type: " ++ e.Type_)) := by
  have hfirst : ∀ pre e post, l.Entry = pre ++ e :: post →
      (∀ x ∈ pre, x.Type_ ∈ knownTypes) → e.Type_ ∉ knownTypes →
      l.toProto = .error ("unknown domain type: " ++ e.Type_) := by
    intro pre e post hsplit hpre he
    simp [ParsedList.toProto, hsplit, toProtoLoop_first_unknown pre e post [] hpre he]
  have hiff : (∃ msg, l.toProto = .error msg) ↔ ∃ e ∈ l.Entry, e.Type_ ∉ knownTypes := by
    constructor
    · rintro ⟨msg, hmsg⟩
      rcases first_unknown_split l.Entry with h | ⟨pre, e, post, h1, _, h3⟩
      · obtain ⟨ds, hds, _⟩ := toProtoLoop_known l.Entry [] h
        simp [ParsedList.toProto, hds] at hmsg
      · exact ⟨e, by simp [h1], h3⟩
    · rintro ⟨e, he, hun⟩
      rcases first_unknown_split l.Entry with h | ⟨pre, x, post, h1, h2, h3⟩
      · exact absurd (h e he) hun
      · exact ⟨_, hfirst pre x post h1 h2 h3⟩
  refine ⟨hiff, ?_, hfirst⟩
  intro hex site hsite
  obtain ⟨msg, hmsg⟩ := hiff.2 hex
  rw [hmsg] at hsite
  cases hsite

/-- C9 (as stated, refuted). The tag REGEX equals regex up to letter case, yet
toProto does not classify the entry as a Regex matcher: it returns the error
for an unknown tag and no group. -/
theorem C9_toProto_rejects_upper_case_tag :
    strings.ToLower ascii "REGEX" = "regex" ∧
      exampleUpperTag.toProto = .error "unknown domain type: REGEX" ∧
      ¬ ∃ site, exampleUpperTag.toProto = .ok site := by
  refine ⟨by decide, rfl, ?_⟩
  rintro ⟨site, hsite⟩
  have h : exampleUpperTag.toProto = .error "unknown domain type: REGEX" := rfl
  rw [h] at hsite
  cases hsite

/-- C9 (amended). Classification by toProto is exact in the tag: for every value
v, an entry tagged exactly regex becomes a Regex matcher with value v, and
likewise domain, keyword and full become Domain_Domain, Domain_Plain and
Domain_Full; every other tag is rejected with the unknown-tag error, and so is,
in particular, a tag that differs from its own lower-casing, whatever it equals
up to letter case. -/
theorem C9_toProto_tag_is_case_sensitive (name : String) (incl : List String) (t v : String) :
    (ParsedList.mk name incl [⟨"regex", v⟩]).toProto = .ok ⟨name, [⟨Domain_Type.Regex, v⟩]⟩ ∧
    (ParsedList.mk name incl [⟨"domain", v⟩]).toProto = .ok ⟨name, [⟨Domain_Type.Domain, v⟩]⟩ ∧
    (ParsedList.mk name incl [⟨"keyword", v⟩]).toProto = .ok ⟨name, [⟨Domain_Type.Plain, v⟩]⟩ ∧
    (ParsedList.mk name incl [⟨"full", v⟩]).toProto = .ok ⟨name, [⟨Domain_Type.Full, v⟩]⟩ ∧
    (t ∉ knownTypes →
      (ParsedList.mk name incl [⟨t, v⟩]).toProto = .error ("unknown domain type: " ++ t)) ∧
    (AgreesOnAscii unicode → strings.ToLower unicode t ≠ t →
      (ParsedList.mk name incl [⟨t, v⟩]).toProto = .error ("unknown domain type: " ++ t)) := by
  have hrej : t ∉ knownTypes →
      (ParsedList.mk name incl [⟨t, v⟩]).toProto = .error ("unknown domain type: " ++ t) := by
    intro hun
    simp [ParsedList.toProto, toProtoLoop, toProtoEntry_unknown ⟨t, v⟩ hun]
  refine ⟨rfl, rfl, rfl, rfl, hrej, ?_⟩
  intro hascii ht
  exact hrej (fun hmem => ht (ToLower_knownTypes hascii t hmem))

theorem C9_toProto_tag_is_case_sensitive_witness :
    AgreesOnAscii ascii ∧ strings.ToLower ascii "REGEX" ≠ "REGEX" ∧
      (ParsedList.mk "A" [] [⟨"REGEX", "a.*b"⟩]).toProto =
        .error ("unknown domain type: " ++ "REGEX") :=
  ⟨ascii_AgreesOnAscii, by decide,
    (C9_toProto_tag_is_case_sensitive "A" [] "REGEX" "a.*b").2.2.2.2.2 ascii_AgreesOnAscii
      (by decide)⟩

/-! ## Include resolution: `ParseList` -/

/-- The three ways in which the loop body leaves an entry without an error. -/
theorem passStep_ok_cases {ref : Registry} {st st1 : PassState} {e : Entry}
    (h : passStep unicode ref st e = .ok st1) :
    (e.Type_ ≠ "include" ∧ st1 = { st with newEntryList := st.newEntryList ++ [e] }) ∨
    (e.Type_ = "include" ∧ e.Value ∈ st.Inclusion ∧ st1 = st) ∨
    (e.Type_ = "include" ∧ e.Value ∉ st.Inclusion ∧
      ∃ r, ref.lookup (strings.ToUpper unicode e.Value) = some r ∧
        st1 = { Inclusion := st.Inclusion.insert (strings.ToUpper unicode e.Value),
                newEntryList := st.newEntryList ++ r.Entry,
                hasInclude := true }) := by
  unfold passStep at h
  by_cases ht : e.Type_ = "include"
  · rw [if_pos ht] at h
    by_cases hm : e.Value ∈ st.Inclusion
    · rw [if_pos hm] at h
      right; left
      exact ⟨ht, hm, by cases h; rfl⟩
    · rw [if_neg hm] at h
      right; right
      refine ⟨ht, hm, ?_⟩
      cases hl : ref.lookup (strings.ToUpper unicode e.Value) with
      | none => simp [hl] at h
      | some r =>
        simp only [hl] at h
        exact ⟨r, rfl, by cases h; rfl⟩
  · rw [if_neg ht] at h
    left
    exact ⟨ht, by cases h; rfl⟩

/-- The only error of the loop body is the one for a missing list. -/
theorem passStep_error_cases {ref : Registry} {st : PassState} {e : Entry} {msg : String}
    (h : passStep unicode ref st e = .error msg) :
    e.Type_ = "include" ∧ e.Value ∉ st.Inclusion ∧
      ref.lookup (strings.ToUpper unicode e.Value) = none ∧ msg = e.Value ++ " not found." := by
  unfold passStep at h
  by_cases ht : e.Type_ = "include"
  · rw [if_pos ht] at h
    by_cases hm : e.Value ∈ st.Inclusion
    · rw [if_pos hm] at h
      cases h
    · rw [if_neg hm] at h
      cases hl : ref.lookup (strings.ToUpper unicode e.Value) with
      | none =>
        simp only [hl] at h
        exact ⟨ht, hm, rfl, by cases h; rfl⟩
      | some r => simp [hl] at h
  · rw [if_neg ht] at h
    cases h

/-- Invariants of the loop body carry over to a whole pass. -/
theorem pass_invariant {ref : Registry} (P : PassState → Prop) (es : List Entry)
    (hstep : ∀ st e st1, e ∈ es → P st → passStep unicode ref st e = .ok st1 → P st1) :
    ∀ st st2, P st → pass unicode ref st es = .ok st2 → P st2 := by
  induction es with
  | nil =>
    intro st st2 hP h
    simp only [pass] at h
    cases h
    exact hP
  | cons e rest ih =>
    intro st st2 hP h
    simp only [pass] at h
    cases hs : passStep unicode ref st e with
    | error msg => simp [hs] at h
    | ok st1 =>
      simp only [hs] at h
      exact ih (fun s x s1 hx => hstep s x s1 (List.mem_cons_of_mem _ hx)) st1 st2
        (hstep st e st1 (List.mem_cons_self _ _) hP hs) h

/-- A pass over entries without includes copies them and changes nothing else. -/
theorem pass_no_include (ref : Registry) (es : List Entry)
    (h : ∀ e ∈ es, e.Type_ ≠ "include") :
    ∀ st, pass unicode ref st es = .ok { st with newEntryList := st.newEntryList ++ es } := by
  induction es with
  | nil => intro st; simp [pass]
  | cons e rest ih =>
    intro st
    have he : e.Type_ ≠ "include" := h e (List.mem_cons_self _ _)
    simp only [pass, passStep, if_neg he]
    rw [ih (fun x hx => h x (List.mem_cons_of_mem _ hx))]
    simp

/-- What the loop returns, it returns under every larger budget. -/
theorem parseLoop_mono (ref : Registry) (n : Nat) :
    ∀ incl es r, parseLoop unicode ref n incl es = some r → ∀ m, n ≤ m → parseLoop unicode ref m incl es = some r := by
  induction n with
  | zero => intro incl es r h; simp [parseLoop] at h
  | succ n ih =>
    intro incl es r h m hm
    obtain ⟨k, rfl⟩ : ∃ k, m = k + 1 := ⟨m - 1, by omega⟩
    simp only [parseLoop] at h ⊢
    cases hp : pass unicode ref { Inclusion := incl, newEntryList := [], hasInclude := false } es with
    | error msg => simpa [hp] using h
    | ok st =>
      simp only [hp] at h ⊢
      by_cases hh : st.hasInclude = true
      · simp only [hh, if_true] at h ⊢
        exact ih _ _ _ h k (by omega)
      · simpa [hh] using h

theorem ParseList_mono (list : SiteList) (ref : Registry) (n m : Nat) (hnm : n ≤ m)
    (r : Except String ParsedList) (h : ParseList unicode n list ref = some r) :
    ParseList unicode m list ref = some r := by
  unfold ParseList at h ⊢
  cases hl : parseLoop unicode ref n [] list.Entry with
  | none => simp [hl] at h
  | some x =>
    rw [parseLoop_mono ref n _ _ x hl m hnm]
    simpa [hl] using h

/-- A successful run of the loop ends with a list free of includes. -/
theorem parseLoop_no_include (ref : Registry) (n : Nat) :
    ∀ incl es incl2 out, parseLoop unicode ref n incl es = some (.ok (incl2, out)) →
      ∀ e ∈ out, e.Type_ ≠ "include" := by
  induction n with
  | zero => intro incl es incl2 out h; simp [parseLoop] at h
  | succ n ih =>
    intro incl es incl2 out h
    simp only [parseLoop] at h
    cases hp : pass unicode ref { Inclusion := incl, newEntryList := [], hasInclude := false } es with
    | error msg => simp [hp] at h
    | ok st =>
      simp only [hp] at h
      by_cases hh : st.hasInclude = true
      · simp only [hh, if_true] at h
        exact ih _ _ _ _ h
      · simp only [hh] at h
        have hinv := pass_invariant
          (fun s : PassState => s.hasInclude = false → ∀ e ∈ s.newEntryList, e.Type_ ≠ "include")
          es
          (by
            intro s x s1 _ hP hs
            rcases passStep_ok_cases hs with ⟨hx, rfl⟩ | ⟨_, _, rfl⟩ | ⟨_, _, r, _, rfl⟩
            · intro hf e he
              rcases List.mem_append.1 he with he | he
              · exact hP hf e he
              · rw [List.mem_singleton.1 he]; exact hx
            · exact hP
            · intro hf; cases hf)
          _ st (by intro _ e he; cases he) hp
        simp only [Bool.false_eq_true, if_false, Option.some.injEq, Except.ok.injEq,
          Prod.mk.injEq] at h
        rw [← h.2]
        exact hinv (by simpa using hh)

/-- C1. Whenever ParseList returns a ParsedList, none of its entries has the tag
include. -/
theorem C1_ParseList_no_residual_include (fuel : Nat) (list : SiteList) (ref : Registry)
    (pl : ParsedList) (h : ParseList unicode fuel list ref = some (.ok pl)) :
    ∀ e ∈ pl.Entry, e.Type_ ≠ "include" := by
  unfold ParseList at h
  cases hl : parseLoop unicode ref fuel [] list.Entry with
  | none => simp [hl] at h
  | some x =>
    cases x with
    | error msg => simp [hl] at h
    | ok p =>
      obtain ⟨incl2, out⟩ := p
      simp only [hl, Option.some.injEq, Except.ok.injEq] at h
      rw [← h]
      exact parseLoop_no_include ref fuel _ _ _ _ hl

theorem C1_ParseList_no_residual_include_witness :
    ParseList ascii 2 exampleList exampleRegistry =
        some (.ok ⟨"A", ["B"], [⟨"domain", "example.com"⟩, ⟨"keyword", "ads"⟩]⟩) ∧
      ∀ e ∈ [Entry.mk "domain" "example.com", Entry.mk "keyword" "ads"], e.Type_ ≠ "include" :=
  ⟨rfl, @C1_ParseList_no_residual_include ascii 2 exampleList exampleRegistry
    ⟨"A", ["B"], [⟨"domain", "example.com"⟩, ⟨"keyword", "ads"⟩]⟩ rfl⟩

/-- C5. For a list without include entries ParseList returns after its first
pass, with the name of the list, the entries of the list in their order and an
empty Inclusion set. -/
theorem C5_ParseList_identity_without_include (fuel : Nat) (list : SiteList) (ref : Registry)
    (h : ∀ e ∈ list.Entry, e.Type_ ≠ "include") :
    ParseList unicode (fuel + 1) list ref =
      some (.ok { Name := list.Name, Inclusion := [], Entry := list.Entry }) := by
  simp [ParseList, parseLoop, pass_no_include ref list.Entry h]

theorem C5_ParseList_identity_without_include_witness :
    (∀ e ∈ (SiteList.mk "B" [⟨"keyword", "ads"⟩, ⟨"domain", "example.com"⟩]).Entry,
        e.Type_ ≠ "include") ∧
      ParseList ascii 1 (SiteList.mk "B" [⟨"keyword", "ads"⟩, ⟨"domain", "example.com"⟩])
          exampleRegistry =
        some (.ok { Name := "B", Inclusion := [],
                    Entry := [⟨"keyword", "ads"⟩, ⟨"domain", "example.com"⟩] }) :=
  ⟨by decide,
    C5_ParseList_identity_without_include 0
      (SiteList.mk "B" [⟨"keyword", "ads"⟩, ⟨"domain", "example.com"⟩]) exampleRegistry
      (by decide)⟩

/-- C3 (the code at the failing input). With A = [include:b, include:b] and
B = [keyword:ads], ParseList on A returns the entries of B twice, under every
budget of at least two passes: the guard looks up the raw value b while the set
holds the upper-cased name B. -/
theorem C3_duplicate_include_expanded_twice :
    ∀ n, ParseList ascii (n + 2) dupList dupRegistry =
      some (.ok { Name := "A", Inclusion := ["B"],
                  Entry := [⟨"keyword", "ads"⟩, ⟨"keyword", "ads"⟩] }) :=
  fun n => ParseList_mono dupList dupRegistry 2 (n + 2) (Nat.le_add_left 2 n) _ rfl

theorem passStep_InclusionKeys {ref : Registry} {st st1 : PassState} {e : Entry}
    (hinv : InclusionKeys unicode ref st.Inclusion) (h : passStep unicode ref st e = .ok st1) :
    InclusionKeys unicode ref st1.Inclusion := by
  rcases passStep_ok_cases h with ⟨_, rfl⟩ | ⟨_, _, rfl⟩ | ⟨_, _, r, hr, rfl⟩
  · exact hinv
  · exact hinv
  · intro x hx
    rcases List.mem_insert_iff.1 hx with rfl | hx
    · exact ⟨⟨e.Value, rfl⟩, r, hr⟩
    · exact hinv x hx

/-- A name in the Inclusion set is its own upper-casing. -/
theorem InclusionKeys_fixed (hidem : UpperIdempotent unicode) {ref : Registry}
    {incl : List String} (h : InclusionKeys unicode ref incl) :
    ∀ x ∈ incl, strings.ToUpper unicode x = x := by
  intro x hx
  obtain ⟨⟨v, rfl⟩, _⟩ := h x hx
  exact ToUpper_ToUpper hidem v

/-- A pass over a list that holds an include of a missing list fails. -/
theorem pass_missing_include (hidem : UpperIdempotent unicode) (ref : Registry)
    (es : List Entry) :
    ∀ st, InclusionKeys unicode ref st.Inclusion →
      (∃ e ∈ es, e.Type_ = "include" ∧ ref.lookup (strings.ToUpper unicode e.Value) = none) →
      ∃ x ∈ es, x.Type_ = "include" ∧ ref.lookup (strings.ToUpper unicode x.Value) = none ∧
        pass unicode ref st es = .error (x.Value ++ " not found.") := by
  induction es with
  | nil => rintro st _ ⟨e, he, _⟩; cases he
  | cons x rest ih =>
    rintro st hinv ⟨e, he, hty, hmiss⟩
    cases hs : passStep unicode ref st x with
    | error msg =>
      obtain ⟨h1, _, h3, h4⟩ := passStep_error_cases hs
      refine ⟨x, List.mem_cons_self _ _, h1, h3, ?_⟩
      simp [pass, hs, h4]
    | ok st1 =>
      have hinv1 := passStep_InclusionKeys hinv hs
      have hrest : ∃ e ∈ rest, e.Type_ = "include" ∧
          ref.lookup (strings.ToUpper unicode e.Value) = none := by
        rcases List.mem_cons.1 he with rfl | he
        · exfalso
          rcases passStep_ok_cases hs with ⟨hne, _⟩ | ⟨_, hmem, _⟩ | ⟨_, _, r, hr, _⟩
          · exact hne hty
          · obtain ⟨_, r, hr⟩ := hinv _ hmem
            rw [InclusionKeys_fixed hidem hinv _ hmem, hr] at hmiss
            cases hmiss
          · rw [hr] at hmiss
            cases hmiss
        · exact ⟨e, he, hty, hmiss⟩
      obtain ⟨y, hy, h1, h2, h3⟩ := ih st1 hinv1 hrest
      refine ⟨y, List.mem_cons_of_mem _ hy, h1, h2, ?_⟩
      simp [pass, hs, h3]

/-- C4. When the list itself holds an include entry whose upper-cased value is
not a key of the registry, ParseList returns in its first pass, with the error
for a missing list and no ParsedList; the error names an include entry of the
list whose upper-cased value is not a key. The upper-casing is that of any case
mapping under which an upper-case form is its own upper-case form. -/
theorem C4_ParseList_unresolved_include (hidem : UpperIdempotent unicode) (fuel : Nat)
    (list : SiteList) (ref : Registry)
    (h : ∃ e ∈ list.Entry, e.Type_ = "include" ∧
      ref.lookup (strings.ToUpper unicode e.Value) = none) :
    ∃ x ∈ list.Entry, x.Type_ = "include" ∧ ref.lookup (strings.ToUpper unicode x.Value) = none ∧
      ParseList unicode (fuel + 1) list ref = some (.error (x.Value ++ " not found.")) := by
  obtain ⟨x, hx, h1, h2, h3⟩ :=
    pass_missing_include hidem ref list.Entry
      { Inclusion := [], newEntryList := [], hasInclude := false }
      (by intro y hy; cases hy) h
  exact ⟨x, hx, h1, h2, by simp [ParseList, parseLoop, h3]⟩

theorem C4_ParseList_unresolved_include_witness :
    UpperIdempotent ascii ∧
    (∃ e ∈ missingList.Entry, e.Type_ = "include" ∧
        missingRegistry.lookup (strings.ToUpper ascii e.Value) = none) ∧
      ∃ x ∈ missingList.Entry, x.Type_ = "include" ∧
        missingRegistry.lookup (strings.ToUpper ascii x.Value) = none ∧
        ParseList ascii 1 missingList missingRegistry = some (.error (x.Value ++ " not found.")) :=
  ⟨ascii_UpperIdempotent, ⟨⟨"include", "b"⟩, by decide, rfl, rfl⟩,
    C4_ParseList_unresolved_include ascii_UpperIdempotent 0 missingList missingRegistry
      ⟨⟨"include", "b"⟩, by decide, rfl, rfl⟩⟩

/-- On the 2-cycle the loop alternates between two states from its third pass
on. -/
theorem parseLoop_cycle_runs (n : Nat) :
    parseLoop ascii cycleRegistry n ["A", "B"] [⟨"include", "b"⟩] = none ∧
      parseLoop ascii cycleRegistry n ["A", "B"] [⟨"include", "a"⟩] = none := by
  induction n with
  | zero => exact ⟨rfl, rfl⟩
  | succ n ih => exact ⟨ih.2, ih.1⟩

theorem ParseList_cycle_runs (n : Nat) : ParseList ascii n cycleList cycleRegistry = none := by
  have h : parseLoop ascii cycleRegistry n [] cycleList.Entry = none := by
    match n with
    | 0 => rfl
    | 1 => rfl
    | 2 => rfl
    | k + 3 => exact (parseLoop_cycle_runs (k + 1)).1
  simp [ParseList, h]

/-- C2 (as stated, refuted). On A = [include:b], B = [include:a] ParseList
returns under no budget of passes, neither an error nor a result; on the same
cycle between lists named 1 and 2 it returns a successful result. -/
theorem C2_cycle_loops_or_succeeds :
    (¬ ∃ n r, ParseList ascii n cycleList cycleRegistry = some r) ∧
      ParseList ascii 3 digitCycleList digitCycleRegistry =
        some (.ok { Name := "1", Inclusion := ["1", "2"], Entry := [] }) := by
  refine ⟨?_, rfl⟩
  rintro ⟨n, r, h⟩
  rw [ParseList_cycle_runs n] at h
  cases h

theorem lookup_some_mem_keys {ref : Registry} {k : String} {r : SiteList}
    (h : ref.lookup k = some r) : k ∈ ref.map Prod.fst := by
  induction ref with
  | nil => simp at h
  | cons p rest ih =>
    obtain ⟨k1, v1⟩ := p
    by_cases hk : k = k1
    · simp [hk]
    · have hb : (k == k1) = false := by simpa using hk
      rw [List.lookup_cons, hb] at h
      simp only [List.map_cons, List.mem_cons]
      exact Or.inr (ih h)

theorem lookup_some_mem {ref : Registry} {k : String} {r : SiteList}
    (h : ref.lookup k = some r) : (k, r) ∈ ref := by
  induction ref with
  | nil => simp at h
  | cons p rest ih =>
    obtain ⟨k1, v1⟩ := p
    by_cases hk : k = k1
    · have hb : (k == k1) = true := by simpa using hk
      rw [List.lookup_cons, hb] at h
      simp only [Option.some.injEq] at h
      simp [hk, h]
    · have hb : (k == k1) = false := by simpa using hk
      rw [List.lookup_cons, hb] at h
      exact List.mem_cons_of_mem _ (ih h)

/-- An Inclusion set without repetitions has at most as many names as the
registry has lists. -/
theorem inclusion_length_le (ref : Registry) (incl : List String)
    (hnd : incl.Nodup) (hk : InclusionKeys unicode ref incl) : incl.length ≤ ref.length := by
  have hsub : incl ⊆ ref.map Prod.fst := by
    intro x hx
    obtain ⟨_, r, hr⟩ := hk x hx
    exact lookup_some_mem_keys hr
  have := (List.subperm_of_subset hnd hsub).length_le
  simpa using this

/-- Every error of a pass is the error for a missing list. -/
theorem pass_error_shape (ref : Registry) (es : List Entry) :
    ∀ st msg, pass unicode ref st es = .error msg →
      ∃ v, ref.lookup (strings.ToUpper unicode v) = none ∧ msg = v ++ " not found." := by
  induction es with
  | nil => intro st msg h; simp [pass] at h
  | cons e rest ih =>
    intro st msg h
    simp only [pass] at h
    cases hs : passStep unicode ref st e with
    | error m =>
      simp only [hs, Except.error.injEq] at h
      obtain ⟨_, _, h3, h4⟩ := passStep_error_cases hs
      exact ⟨e.Value, h3, by rw [← h, h4]⟩
    | ok st1 =>
      simp only [hs] at h
      exact ih st1 msg h

theorem pass_grows (ref : Registry)
    (href : ∀ k r, ref.lookup k = some r → UpperFixedIncludes unicode r.Entry)
    (incl : List String) (es : List Entry) (hes : UpperFixedIncludes unicode es)
    (hnd : incl.Nodup) (hk : InclusionKeys unicode ref incl) (st : PassState)
    (h : pass unicode ref { Inclusion := incl, newEntryList := [], hasInclude := false } es = .ok st) :
    PassGrows unicode ref incl st := by
  refine pass_invariant (PassGrows unicode ref incl) es ?_ _ st ?_ h
  · intro s e s1 he hP hs
    obtain ⟨p1, p2, p3, p4, p5⟩ := hP
    rcases passStep_ok_cases hs with ⟨hne, rfl⟩ | ⟨_, _, rfl⟩ | ⟨hty, hnm, r, hr, rfl⟩
    · refine ⟨p1, p2, p3, p4, ?_⟩
      intro x hx hxt
      rcases List.mem_append.1 hx with hx | hx
      · exact p5 x hx hxt
      · rw [List.mem_singleton.1 hx] at hxt
        exact absurd hxt hne
    · exact ⟨p1, p2, p3, p4, p5⟩
    · have hfix : strings.ToUpper unicode e.Value = e.Value := hes e he hty
      have hlen : (s.Inclusion.insert (strings.ToUpper unicode e.Value)).length =
          s.Inclusion.length + 1 := by
        rw [hfix]; exact List.length_insert_of_not_mem hnm
      refine ⟨p1.insert, ?_, ?_, ?_, ?_⟩
      · intro x hx
        rcases List.mem_insert_iff.1 hx with rfl | hx
        · exact ⟨⟨e.Value, rfl⟩, r, hr⟩
        · exact p2 x hx
      · show incl.length ≤ (s.Inclusion.insert (strings.ToUpper unicode e.Value)).length
        omega
      · intro _
        show incl.length < (s.Inclusion.insert (strings.ToUpper unicode e.Value)).length
        omega
      · intro x hx hxt
        rcases List.mem_append.1 hx with hx | hx
        · exact p5 x hx hxt
        · exact href _ r hr x hx hxt
  · unfold PassGrows
    refine ⟨hnd, hk, le_refl _, ?_, ?_⟩
    · intro hf; cases hf
    · intro x hx; cases hx

/-- With upper-fixed include values the loop returns once every list of the
registry has been included. -/
theorem parseLoop_terminates_upper_fixed (ref : Registry)
    (href : ∀ k r, ref.lookup k = some r → UpperFixedIncludes unicode r.Entry) (k : Nat) :
    ∀ incl es, UpperFixedIncludes unicode es → incl.Nodup → InclusionKeys unicode ref incl →
      ref.length - incl.length ≤ k →
      ∃ res, parseLoop unicode ref (k + 1) incl es = some res ∧
        ((∃ p, res = .ok p) ∨
          ∃ v, ref.lookup (strings.ToUpper unicode v) = none ∧ res = .error (v ++ " not found.")) := by
  induction k with
  | zero =>
    intro incl es hes hnd hk hle
    simp only [parseLoop]
    cases hp : pass unicode ref { Inclusion := incl, newEntryList := [], hasInclude := false } es with
    | error msg =>
      obtain ⟨v, hv, hmsg⟩ := pass_error_shape ref es _ msg hp
      exact ⟨_, rfl, Or.inr ⟨v, hv, by rw [hmsg]⟩⟩
    | ok st =>
      obtain ⟨q1, q2, _, q4, _⟩ := pass_grows ref href incl es hes hnd hk st hp
      have hb := inclusion_length_le ref st.Inclusion q1 q2
      by_cases hh : st.hasInclude = true
      · have := q4 hh
        omega
      · simp only [hh]
        exact ⟨_, rfl, Or.inl ⟨_, rfl⟩⟩
  | succ k ih =>
    intro incl es hes hnd hk hle
    rw [parseLoop]
    cases hp : pass unicode ref { Inclusion := incl, newEntryList := [], hasInclude := false } es with
    | error msg =>
      obtain ⟨v, hv, hmsg⟩ := pass_error_shape ref es _ msg hp
      exact ⟨_, rfl, Or.inr ⟨v, hv, by rw [hmsg]⟩⟩
    | ok st =>
      obtain ⟨q1, q2, _, q4, q5⟩ := pass_grows ref href incl es hes hnd hk st hp
      by_cases hh : st.hasInclude = true
      · simp only [hh, if_true]
        have := q4 hh
        exact ih st.Inclusion st.newEntryList q5 q1 q2 (by omega)
      · simp only [hh]
        exact ⟨_, rfl, Or.inl ⟨_, rfl⟩⟩

/-- C2 (amended). When every include value, in the list and in the lists of the
registry, equals its own upper-casing, ParseList returns within as many passes
as the registry has lists plus one, include cycles or not; what it returns is a
ParsedList or the error for a missing list, whose upper-cased name is not a key
of the registry. -/
theorem C2_ParseList_terminates_upper_fixed (list : SiteList) (ref : Registry)
    (hlist : UpperFixedIncludes unicode list.Entry)
    (href : ∀ k r, ref.lookup k = some r → UpperFixedIncludes unicode r.Entry) :
    ∃ res, ParseList unicode (ref.length + 1) list ref = some res ∧
      ((∃ pl, res = .ok pl) ∨
        ∃ v, ref.lookup (strings.ToUpper unicode v) = none ∧ res = .error (v ++ " not found.")) := by
  obtain ⟨res, hres, hshape⟩ :=
    parseLoop_terminates_upper_fixed ref href ref.length [] list.Entry hlist List.nodup_nil
      (by intro x hx; cases hx) (by simp)
  rcases hshape with ⟨⟨incl, out⟩, rfl⟩ | ⟨v, hv, rfl⟩
  · exact ⟨.ok { Name := list.Name, Inclusion := incl, Entry := out },
      by simp only [ParseList, hres], Or.inl ⟨_, rfl⟩⟩
  · exact ⟨.error (v ++ " not found."), by simp only [ParseList, hres], Or.inr ⟨v, hv, rfl⟩⟩

theorem C2_ParseList_terminates_upper_fixed_witness :
    UpperFixedIncludes ascii digitCycleList.Entry ∧
      (∀ k r, digitCycleRegistry.lookup k = some r → UpperFixedIncludes ascii r.Entry) ∧
      ∃ res, ParseList ascii (digitCycleRegistry.length + 1) digitCycleList digitCycleRegistry =
          some res ∧
        ((∃ pl, res = .ok pl) ∨
          ∃ v, digitCycleRegistry.lookup (strings.ToUpper ascii v) = none ∧
            res = .error (v ++ " not found.")) :=
  have h1 : UpperFixedIncludes ascii digitCycleList.Entry := by
    unfold UpperFixedIncludes; decide
  have h2 : ∀ k r, digitCycleRegistry.lookup k = some r → UpperFixedIncludes ascii r.Entry := by
    intro k r h
    have hmem := lookup_some_mem h
    simp only [digitCycleRegistry, List.mem_cons, Prod.mk.injEq, List.mem_singleton,
      List.not_mem_nil, or_false] at hmem
    rcases hmem with ⟨_, rfl⟩ | ⟨_, rfl⟩ <;> (unfold UpperFixedIncludes; decide)
  ⟨h1, h2, C2_ParseList_terminates_upper_fixed digitCycleList digitCycleRegistry h1 h2⟩

/-! ### Termination on acyclic include graphs -/

/-- A list whose includes nest at most `d` deep is resolved in `d + 1` passes,
from every Inclusion set. -/
theorem parseLoop_terminates_depthLe (ref : Registry) (d : Nat) :
    ∀ es incl, depthLe unicode ref d es → ∃ res, parseLoop unicode ref (d + 1) incl es = some res := by
  induction d with
  | zero =>
    intro es incl hd
    simp only [parseLoop]
    cases hp : pass unicode ref { Inclusion := incl, newEntryList := [], hasInclude := false } es with
    | error msg => exact ⟨_, rfl⟩
    | ok st =>
      have hinv := pass_invariant (fun s : PassState => s.hasInclude = false) es
        (by
          intro s e s1 he hP hs
          rcases passStep_ok_cases hs with ⟨_, rfl⟩ | ⟨_, _, rfl⟩ | ⟨hty, _, r, hr, _⟩
          · exact hP
          · exact hP
          · have := hd e he hty
            rw [hr] at this
            cases this)
        _ st rfl hp
      simp only [hinv]
      exact ⟨_, rfl⟩
  | succ d ih =>
    intro es incl hd
    rw [parseLoop]
    cases hp : pass unicode ref { Inclusion := incl, newEntryList := [], hasInclude := false } es with
    | error msg => exact ⟨_, rfl⟩
    | ok st =>
      have hinv := pass_invariant (fun s : PassState => depthLe unicode ref d s.newEntryList) es
        (by
          intro s e s1 he hP hs
          rcases passStep_ok_cases hs with ⟨hne, rfl⟩ | ⟨_, _, rfl⟩ | ⟨hty, _, r, hr, rfl⟩
          · cases d with
            | zero =>
              intro x hx hxt
              rcases List.mem_append.1 hx with hx | hx
              · exact hP x hx hxt
              · rw [List.mem_singleton.1 hx] at hxt
                exact absurd hxt hne
            | succ d =>
              intro x hx hxt
              rcases List.mem_append.1 hx with hx | hx
              · exact hP x hx hxt
              · rw [List.mem_singleton.1 hx] at hxt
                exact absurd hxt hne
          · exact hP
          · have hsub : depthLe unicode ref d r.Entry := hd e he hty r hr
            cases d with
            | zero =>
              intro x hx hxt
              rcases List.mem_append.1 hx with hx | hx
              · exact hP x hx hxt
              · exact hsub x hx hxt
            | succ d =>
              intro x hx hxt
              rcases List.mem_append.1 hx with hx | hx
              · exact hP x hx hxt
              · exact hsub x hx hxt)
        _ st
        (by cases d with
          | zero => intro x hx; cases hx
          | succ d => intro x hx; cases hx)
        hp
      by_cases hh : st.hasInclude = true
      · simp only [hh, if_true]
        exact ih _ _ hinv
      · simp only [hh]
        exact ⟨_, rfl⟩

/-- Includes that nest more than `d` deep give a path of `d + 1` registry keys
in the include graph. -/
theorem chain_of_not_depthLe (ref : Registry) (d : Nat) :
    ∀ es, ¬ depthLe unicode ref d es →
      ∃ a p, Includes unicode es a ∧ List.Chain (IncludeEdge unicode ref) a p ∧ p.length = d ∧
        ∀ x ∈ a :: p, ∃ r, ref.lookup x = some r := by
  induction d with
  | zero =>
    intro es h
    simp only [depthLe, not_forall] at h
    obtain ⟨e, he, hty, hl⟩ := h
    obtain ⟨r, hr⟩ := Option.ne_none_iff_exists'.1 hl
    refine ⟨strings.ToUpper unicode e.Value, [], ⟨e, he, hty, rfl⟩, List.Chain.nil, rfl, ?_⟩
    intro x hx
    rw [List.mem_singleton.1 hx]
    exact ⟨r, hr⟩
  | succ d ih =>
    intro es h
    simp only [depthLe, not_forall] at h
    obtain ⟨e, he, hty, r, hr, hsub⟩ := h
    obtain ⟨a, p, ha, hchain, hlen, hkeys⟩ := ih r.Entry hsub
    refine ⟨strings.ToUpper unicode e.Value, a :: p, ⟨e, he, hty, rfl⟩,
      List.Chain.cons ⟨r, hr, ha⟩ hchain, by simp [hlen], ?_⟩
    intro x hx
    rcases List.mem_cons.1 hx with rfl | hx
    · exact ⟨r, hr⟩
    · exact hkeys x hx

/-- A path that visits a node twice runs through a cycle. -/
theorem cycle_of_chain_dup {α : Type} (R : α → α → Prop) (p : List α) :
    ∀ a, List.Chain R a p → ¬ (a :: p).Nodup →
      ∃ x, Relation.ReflTransGen R a x ∧ Relation.TransGen R x x := by
  induction p with
  | nil => intro a _ h; simp at h
  | cons b rest ih =>
    intro a hchain hdup
    by_cases hmem : a ∈ b :: rest
    · have hT : List.Chain (Relation.TransGen R) a (b :: rest) :=
        hchain.imp (fun _ _ h => Relation.TransGen.single h)
      exact ⟨a, Relation.ReflTransGen.refl, hT.rel hmem⟩
    · have hrest : ¬ (b :: rest).Nodup := by
        intro hnd
        exact hdup (List.nodup_cons.2 ⟨hmem, hnd⟩)
      obtain ⟨hab, hchain'⟩ := List.chain_cons.1 hchain
      obtain ⟨x, hx, hcyc⟩ := ih b hchain' hrest
      exact ⟨x, Relation.ReflTransGen.head hab hx, hcyc⟩

/-- In an acyclic include graph the includes of the list nest at most as deep as
the registry has lists. -/
theorem depthLe_of_acyclic (ref : Registry) (list : SiteList) (h : Acyclic unicode ref list) :
    depthLe unicode ref ref.length list.Entry := by
  by_contra hnot
  obtain ⟨a, p, ha, hchain, hlen, hkeys⟩ := chain_of_not_depthLe ref ref.length list.Entry hnot
  have hdup : ¬ (a :: p).Nodup := by
    intro hnd
    have hsub : (a :: p) ⊆ ref.map Prod.fst := by
      intro x hx
      obtain ⟨r, hr⟩ := hkeys x hx
      exact lookup_some_mem_keys hr
    have := (List.subperm_of_subset hnd hsub).length_le
    simp only [List.length_cons, List.length_map] at this
    omega
  obtain ⟨x, hx, hcyc⟩ := cycle_of_chain_dup (IncludeEdge unicode ref) p a hchain hdup
  exact h x ⟨a, ha, hx⟩ hcyc

/-- C10. On a registry whose include graph reachable from the list has no cycle,
ParseList returns, a ParsedList or an error, after at most as many passes as the
registry has lists plus one. -/
theorem C10_ParseList_terminates_acyclic (list : SiteList) (ref : Registry)
    (h : Acyclic unicode ref list) :
    ∃ res, ParseList unicode (ref.length + 1) list ref = some res := by
  obtain ⟨res, hres⟩ :=
    parseLoop_terminates_depthLe ref ref.length list.Entry [] (depthLe_of_acyclic ref list h)
  cases res with
  | error msg => exact ⟨.error msg, by simp only [ParseList, hres]⟩
  | ok p =>
    obtain ⟨incl, out⟩ := p
    exact ⟨.ok { Name := list.Name, Inclusion := incl, Entry := out },
      by simp only [ParseList, hres]⟩

/-- The list `B` of the example registry includes nothing. -/
theorem exampleRegistry_no_edge_from_B (c : String) : ¬ IncludeEdge ascii exampleRegistry "B" c := by
  rintro ⟨r, hr, e, he, hty, _⟩
  have h0 : exampleRegistry.lookup "B" = some { Name := "B", Entry := [⟨"keyword", "ads"⟩] } :=
    rfl
  rw [h0] at hr
  have hr' := Option.some.inj hr
  subst hr'
  rw [List.mem_singleton.1 he] at hty
  exact absurd hty (by decide)

/-- From the list `A` of the example registry the includes reach `B` only. -/
theorem exampleRegistry_reachable (b : String) (h : Reachable ascii exampleRegistry exampleList b) :
    b = "B" := by
  obtain ⟨a, ⟨e, he, hty, hval⟩, hpath⟩ := h
  have ha : a = "B" := by
    simp only [exampleList, List.mem_cons, List.mem_singleton, List.not_mem_nil, or_false] at he
    rcases he with rfl | rfl
    · exact absurd hty (by decide)
    · rw [← hval]; rfl
  subst ha
  rcases Relation.ReflTransGen.cases_head hpath with h | ⟨c, hc, _⟩
  · exact h.symm
  · exact absurd hc (exampleRegistry_no_edge_from_B c)

theorem exampleRegistry_acyclic : Acyclic ascii exampleRegistry exampleList := by
  intro b hb hcyc
  have hB := exampleRegistry_reachable b hb
  subst hB
  obtain ⟨c, hc, _⟩ := Relation.TransGen.head'_iff.1 hcyc
  exact exampleRegistry_no_edge_from_B c hc

theorem C10_ParseList_terminates_acyclic_witness :
    Acyclic ascii exampleRegistry exampleList ∧
      ∃ res, ParseList ascii (exampleRegistry.length + 1) exampleList exampleRegistry = some res :=
  ⟨exampleRegistry_acyclic,
    C10_ParseList_terminates_acyclic exampleList exampleRegistry exampleRegistry_acyclic⟩

/-! ### Refinement of the depth-first flattening -/

theorem flattenWith_append (ref : Registry) (sub : List Entry → Option (List Entry))
    (xs : List Entry) :
    ∀ ys a b, flattenWith unicode ref sub xs = some a → flattenWith unicode ref sub ys = some b →
      flattenWith unicode ref sub (xs ++ ys) = some (a ++ b) := by
  induction xs with
  | nil =>
    intro ys a b ha hb
    simp only [flattenWith, Option.some.injEq] at ha
    subst ha
    simpa using hb
  | cons e rest ih =>
    intro ys a b ha hb
    simp only [List.cons_append, flattenWith] at ha ⊢
    by_cases hty : e.Type_ = "include"
    · simp only [hty, if_true] at ha ⊢
      cases hl : ref.lookup (strings.ToUpper unicode e.Value) with
      | none => simp [hl] at ha
      | some r =>
        simp only [hl] at ha ⊢
        cases hs : sub r.Entry with
        | none => simp [hs] at ha
        | some o =>
          cases hr : flattenWith unicode ref sub rest with
          | none => simp [hs, hr] at ha
          | some o2 =>
            simp only [hs, hr, Option.some.injEq] at ha
            subst ha
            simp [ih ys o2 b hr hb]
    · simp only [hty, if_false] at ha ⊢
      cases hr : flattenWith unicode ref sub rest with
      | none => simp [hr] at ha
      | some o2 =>
        simp only [hr, Option.some.injEq] at ha
        subst ha
        simp [ih ys o2 b hr hb]

theorem flatten_append (ref : Registry) (d : Nat) (xs ys a b : List Entry)
    (ha : flatten unicode ref d xs = some a) (hb : flatten unicode ref d ys = some b) :
    flatten unicode ref d (xs ++ ys) = some (a ++ b) := by
  cases d with
  | zero => exact flattenWith_append ref _ xs ys a b ha hb
  | succ d => exact flattenWith_append ref _ xs ys a b ha hb

theorem flatten_cons_other (ref : Registry) (d : Nat) (e : Entry) (rest : List Entry)
    (hty : e.Type_ ≠ "include") :
    flatten unicode ref d (e :: rest) =
      match flatten unicode ref d rest with
      | some b => some (e :: b)
      | none => none := by
  cases d with
  | zero => simp [flatten, flattenWith, hty]
  | succ d => simp [flatten, flattenWith, hty]

/-- A list without includes is its own flattening. -/
theorem flattenWith_no_include (ref : Registry) (sub : List Entry → Option (List Entry))
    (es : List Entry) (h : ∀ e ∈ es, e.Type_ ≠ "include") :
    flattenWith unicode ref sub es = some es := by
  induction es with
  | nil => rfl
  | cons e rest ih =>
    have he : e.Type_ ≠ "include" := h e (List.mem_cons_self _ _)
    simp [flattenWith, he, ih (fun x hx => h x (List.mem_cons_of_mem _ hx))]

theorem flatten_no_include (ref : Registry) (d : Nat) (es : List Entry)
    (h : ∀ e ∈ es, e.Type_ ≠ "include") : flatten unicode ref d es = some es := by
  cases d with
  | zero => exact flattenWith_no_include ref _ es h
  | succ d => exact flattenWith_no_include ref _ es h

/-- At depth zero only lists without includes have a flattening. -/
theorem flatten_zero_some (ref : Registry) (es out : List Entry)
    (h : flatten unicode ref 0 es = some out) : ∀ e ∈ es, e.Type_ ≠ "include" := by
  induction es generalizing out with
  | nil => intro e he; cases he
  | cons x rest ih =>
    simp only [flatten, flattenWith] at h
    by_cases hty : x.Type_ = "include"
    · simp only [hty, if_true] at h
      cases hl : ref.lookup (strings.ToUpper unicode x.Value) with
      | none => simp [hl] at h
      | some r => simp [hl] at h
    · simp only [hty, if_false] at h
      cases hr : flattenWith unicode ref (fun _ => none) rest with
      | none => simp [hr] at h
      | some o =>
        intro e he
        rcases List.mem_cons.1 he with rfl | he
        · exact hty
        · exact ih o hr e he

/-- A list that has a flattening at depth `d + 1` has all its includes resolved,
and the list built by expanding each of them once has the same flattening at
depth `d`. -/
theorem flatten_succ_expandOnce (ref : Registry) (d : Nat) (es : List Entry) :
    ∀ out, flatten unicode ref (d + 1) es = some out →
      AllResolve unicode ref es ∧ flatten unicode ref d (expandOnce unicode ref es) = some out := by
  induction es with
  | nil =>
    intro out h
    refine ⟨(by intro e he; cases he), ?_⟩
    simp only [flatten, flattenWith, Option.some.injEq] at h
    subst h
    exact flatten_no_include ref d [] (by intro e he; cases he)
  | cons x rest ih =>
    intro out h
    simp only [flatten, flattenWith] at h
    by_cases hty : x.Type_ = "include"
    · simp only [hty, if_true] at h
      cases hl : ref.lookup (strings.ToUpper unicode x.Value) with
      | none => simp [hl] at h
      | some r =>
        simp only [hl] at h
        cases hs : flatten unicode ref d r.Entry with
        | none => simp [hs] at h
        | some o =>
          cases hr : flattenWith unicode ref (flatten unicode ref d) rest with
          | none => simp [hs, hr] at h
          | some o2 =>
            simp only [hs, hr, Option.some.injEq] at h
            subst h
            obtain ⟨hres, hflat⟩ := ih o2 hr
            constructor
            · intro e he het
              rcases List.mem_cons.1 he with rfl | he
              · exact ⟨r, hl⟩
              · exact hres e he het
            · simp only [expandOnce, hty, if_true, hl]
              exact flatten_append ref d _ _ _ _ hs hflat
    · simp only [hty, if_false] at h
      cases hr : flattenWith unicode ref (flatten unicode ref d) rest with
      | none => simp [hr] at h
      | some o2 =>
        simp only [hr, Option.some.injEq] at h
        subst h
        obtain ⟨hres, hflat⟩ := ih o2 hr
        constructor
        · intro e he het
          rcases List.mem_cons.1 he with rfl | he
          · exact absurd het hty
          · exact hres e he het
        · simp only [expandOnce, hty, if_false]
          rw [flatten_cons_other ref d x _ hty, hflat]

theorem referencedWith_append (ref : Registry) (sub : List Entry → List String)
    (xs ys : List Entry) :
    referencedWith unicode ref sub (xs ++ ys) = referencedWith unicode ref sub xs ++ referencedWith unicode ref sub ys := by
  induction xs with
  | nil => rfl
  | cons e rest ih =>
    simp only [List.cons_append, referencedWith]
    by_cases hty : e.Type_ = "include"
    · simp only [hty, if_true]
      cases hl : ref.lookup (strings.ToUpper unicode e.Value) with
      | none => simp [ih]
      | some r => simp [ih]
    · simp only [hty, if_false]
      exact ih

theorem referenced_append (ref : Registry) (d : Nat) (xs ys : List Entry) :
    referenced unicode ref d (xs ++ ys) = referenced unicode ref d xs ++ referenced unicode ref d ys := by
  cases d with
  | zero => exact referencedWith_append ref _ xs ys
  | succ d => exact referencedWith_append ref _ xs ys

theorem referenced_cons_other (ref : Registry) (d : Nat) (e : Entry) (rest : List Entry)
    (hty : e.Type_ ≠ "include") :
    referenced unicode ref d (e :: rest) = referenced unicode ref d rest := by
  cases d with
  | zero => simp [referenced, referencedWith, hty]
  | succ d => simp [referenced, referencedWith, hty]

/-- The include occurrences met to depth `d + 1` are those of the list itself
together with those met to depth `d` after one expansion. -/
theorem referenced_succ_perm (ref : Registry) (d : Nat) (es : List Entry)
    (hres : AllResolve unicode ref es) :
    List.Perm (referenced unicode ref (d + 1) es)
      (directNames unicode es ++ referenced unicode ref d (expandOnce unicode ref es)) := by
  induction es with
  | nil =>
    cases d with
    | zero => exact List.Perm.refl _
    | succ d => exact List.Perm.refl _
  | cons e rest ih =>
    have ih' := ih (fun x hx => hres x (List.mem_cons_of_mem _ hx))
    by_cases hty : e.Type_ = "include"
    · obtain ⟨r, hr⟩ := hres e (List.mem_cons_self _ _) hty
      have h1 : referenced unicode ref (d + 1) (e :: rest) =
          strings.ToUpper unicode e.Value ::
            (referenced unicode ref d r.Entry ++ referenced unicode ref (d + 1) rest) := by
        simp [referenced, referencedWith, hty, hr]
      have h2 : directNames unicode (e :: rest) = strings.ToUpper unicode e.Value :: directNames unicode rest := by
        simp [directNames, hty]
      have h3 : expandOnce unicode ref (e :: rest) = r.Entry ++ expandOnce unicode ref rest := by
        simp [expandOnce, hty, hr]
      rw [h1, h2, h3, referenced_append, List.cons_append]
      refine List.Perm.cons _ ?_
      refine (List.Perm.append_left _ ih').trans ?_
      rw [← List.append_assoc, ← List.append_assoc]
      exact List.Perm.append_right _ List.perm_append_comm
    · have h1 : referenced unicode ref (d + 1) (e :: rest) = referenced unicode ref (d + 1) rest :=
        referenced_cons_other ref (d + 1) e rest hty
      have h2 : directNames unicode (e :: rest) = directNames unicode rest := by
        simp [directNames, hty]
      have h3 : expandOnce unicode ref (e :: rest) = e :: expandOnce unicode ref rest := by
        simp [expandOnce, hty]
      rw [h1, h2, h3, referenced_cons_other ref d e _ hty]
      exact ih'

theorem mem_directNames {es : List Entry} {x : String} (h : x ∈ directNames unicode es) :
    ∃ e ∈ es, e.Type_ = "include" ∧ strings.ToUpper unicode e.Value = x := by
  induction es with
  | nil => cases h
  | cons e rest ih =>
    by_cases hty : e.Type_ = "include"
    · simp only [directNames, hty, if_true, List.mem_cons] at h
      rcases h with rfl | h
      · exact ⟨e, List.mem_cons_self _ _, hty, rfl⟩
      · obtain ⟨y, hy, h1, h2⟩ := ih h
        exact ⟨y, List.mem_cons_of_mem _ hy, h1, h2⟩
    · simp only [directNames, hty, if_false] at h
      obtain ⟨y, hy, h1, h2⟩ := ih h
      exact ⟨y, List.mem_cons_of_mem _ hy, h1, h2⟩

theorem directNames_nil_no_include {es : List Entry} (h : directNames unicode es = []) :
    ∀ e ∈ es, e.Type_ ≠ "include" := by
  induction es with
  | nil => intro e he; cases he
  | cons x rest ih =>
    by_cases hty : x.Type_ = "include"
    · simp [directNames, hty] at h
    · simp only [directNames, hty, if_false] at h
      intro e he
      rcases List.mem_cons.1 he with rfl | he
      · exact hty
      · exact ih h e he

theorem expandOnce_no_include (ref : Registry) (es : List Entry)
    (h : ∀ e ∈ es, e.Type_ ≠ "include") : expandOnce unicode ref es = es := by
  induction es with
  | nil => rfl
  | cons x rest ih =>
    have hx : x.Type_ ≠ "include" := h x (List.mem_cons_self _ _)
    simp [expandOnce, hx, ih (fun e he => h e (List.mem_cons_of_mem _ he))]

/-- A pass in which the guard never applies expands every include once: this is
the case when the names in Inclusion are upper-cased and the includes of the
list refer to pairwise distinct names outside Inclusion. -/
theorem pass_expandOnce (hidem : UpperIdempotent unicode) (ref : Registry)
    (es : List Entry) :
    ∀ st, AllResolve unicode ref es → (∀ x ∈ st.Inclusion, strings.ToUpper unicode x = x) →
      (directNames unicode es).Nodup → List.Disjoint st.Inclusion (directNames unicode es) →
      ∃ st1, pass unicode ref st es = .ok st1 ∧
        st1.newEntryList = st.newEntryList ++ expandOnce unicode ref es ∧
        (st1.hasInclude = true ↔ st.hasInclude = true ∨ directNames unicode es ≠ []) ∧
        (∀ x, x ∈ st1.Inclusion ↔ x ∈ st.Inclusion ∨ x ∈ directNames unicode es) := by
  induction es with
  | nil =>
    intro st _ _ _ _
    exact ⟨st, rfl, by simp [expandOnce], by simp [directNames], by simp [directNames]⟩
  | cons e rest ih =>
    intro st hres hfix hnd hdis
    have hres' : AllResolve unicode ref rest := fun x hx => hres x (List.mem_cons_of_mem _ hx)
    by_cases hty : e.Type_ = "include"
    · obtain ⟨r, hr⟩ := hres e (List.mem_cons_self _ _) hty
      have hdn : directNames unicode (e :: rest) = strings.ToUpper unicode e.Value :: directNames unicode rest := by
        simp [directNames, hty]
      rw [hdn] at hnd hdis
      have hguard : e.Value ∉ st.Inclusion := by
        intro hmem
        have hfe := hfix _ hmem
        exact hdis hmem (by rw [hfe]; exact List.mem_cons_self _ _)
      obtain ⟨hnotin, hnd'⟩ := List.nodup_cons.1 hnd
      have hstep : passStep unicode ref st e =
          .ok { Inclusion := st.Inclusion.insert (strings.ToUpper unicode e.Value),
                newEntryList := st.newEntryList ++ r.Entry,
                hasInclude := true } := by
        simp [passStep, hty, hguard, hr]
      obtain ⟨st1, h1, h2, h3, h4⟩ := ih
        { Inclusion := st.Inclusion.insert (strings.ToUpper unicode e.Value),
          newEntryList := st.newEntryList ++ r.Entry,
          hasInclude := true }
        hres'
        (by
          intro x hx
          rcases List.mem_insert_iff.1 hx with rfl | hx
          · exact ToUpper_ToUpper hidem _
          · exact hfix x hx)
        hnd'
        (by
          intro x hx hx2
          rcases List.mem_insert_iff.1 hx with rfl | hx
          · exact hnotin hx2
          · exact hdis hx (List.mem_cons_of_mem _ hx2))
      refine ⟨st1, by simp [pass, hstep, h1], ?_, ?_, ?_⟩
      · rw [h2]
        simp [expandOnce, hty, hr]
      · rw [h3, hdn]
        simp
      · intro x
        rw [h4 x, hdn]
        simp only [List.mem_insert_iff, List.mem_cons]
        tauto
    · have hdn : directNames unicode (e :: rest) = directNames unicode rest := by
        simp [directNames, hty]
      rw [hdn] at hnd hdis
      have hstep : passStep unicode ref st e =
          .ok { st with newEntryList := st.newEntryList ++ [e] } := by
        simp [passStep, hty]
      obtain ⟨st1, h1, h2, h3, h4⟩ := ih
        { st with newEntryList := st.newEntryList ++ [e] } hres' hfix hnd hdis
      refine ⟨st1, by simp [pass, hstep, h1], ?_, ?_, ?_⟩
      · rw [h2]
        simp [expandOnce, hty]
      · rw [h3, hdn]
      · intro x
        rw [h4 x, hdn]

/-- When no name is referred to twice, the loop computes the depth-first
flattening. -/
theorem parseLoop_flatten (hidem : UpperIdempotent unicode) (ref : Registry) (d : Nat) :
    ∀ es incl out, flatten unicode ref d es = some out → (referenced unicode ref d es).Nodup →
      (∀ x ∈ incl, strings.ToUpper unicode x = x) → List.Disjoint incl (referenced unicode ref d es) →
      ∃ incl1, parseLoop unicode ref (d + 1) incl es = some (.ok (incl1, out)) := by
  induction d with
  | zero =>
    intro es incl out hflat _ _ _
    have hno := flatten_zero_some ref es out hflat
    rw [flatten_no_include ref 0 es hno] at hflat
    cases hflat
    exact ⟨incl, by simp [parseLoop, pass_no_include ref es hno]⟩
  | succ d ih =>
    intro es incl out hflat hnd hfix hdis
    obtain ⟨hres, hflat1⟩ := flatten_succ_expandOnce ref d es out hflat
    have hperm := referenced_succ_perm ref d es hres
    have hnd2 : (directNames unicode es ++ referenced unicode ref d (expandOnce unicode ref es)).Nodup :=
      hperm.nodup_iff.1 hnd
    obtain ⟨hndD, hndR, hDR⟩ := List.nodup_append.1 hnd2
    have hdisD : List.Disjoint incl (directNames unicode es) := by
      intro x hx hx2
      exact hdis hx (hperm.mem_iff.2 (List.mem_append_left _ hx2))
    have hdisR : List.Disjoint incl (referenced unicode ref d (expandOnce unicode ref es)) := by
      intro x hx hx2
      exact hdis hx (hperm.mem_iff.2 (List.mem_append_right _ hx2))
    obtain ⟨st1, hp, hnew, hhas, hincl⟩ :=
      pass_expandOnce hidem ref es
        { Inclusion := incl, newEntryList := [], hasInclude := false }
        hres hfix hndD hdisD
    simp only [List.nil_append] at hnew
    rw [parseLoop]
    simp only [hp]
    by_cases hh : st1.hasInclude = true
    · simp only [hh, if_true]
      rw [hnew]
      refine ih _ _ _ hflat1 hndR ?_ ?_
      · intro x hx
        rcases (hincl x).1 hx with hx | hx
        · exact hfix x hx
        · obtain ⟨e, _, _, rfl⟩ := mem_directNames hx
          exact ToUpper_ToUpper hidem _
      · intro x hx hx2
        rcases (hincl x).1 hx with hx | hx
        · exact hdisR hx hx2
        · exact hDR hx hx2
    · have hempty : directNames unicode es = [] := by
        by_contra hne
        exact hh (hhas.2 (Or.inr hne))
      have hno := directNames_nil_no_include hempty
      rw [flatten_no_include ref (d + 1) es hno] at hflat
      cases hflat
      simp only [hh]
      rw [hnew, expandOnce_no_include ref es hno]
      exact ⟨st1.Inclusion, by simp⟩

/-- The flattening does not change when deeper nesting is allowed. -/
theorem flattenWith_mono (ref : Registry) (sub sub1 : List Entry → Option (List Entry))
    (hsub : ∀ l o, sub l = some o → sub1 l = some o) (es : List Entry) :
    ∀ out, flattenWith unicode ref sub es = some out → flattenWith unicode ref sub1 es = some out := by
  induction es with
  | nil => intro out h; simpa [flattenWith] using h
  | cons e rest ih =>
    intro out h
    simp only [flattenWith] at h ⊢
    by_cases hty : e.Type_ = "include"
    · simp only [hty, if_true] at h ⊢
      cases hl : ref.lookup (strings.ToUpper unicode e.Value) with
      | none => simp [hl] at h
      | some r =>
        simp only [hl] at h ⊢
        cases hs : sub r.Entry with
        | none => simp [hs] at h
        | some o =>
          cases hr : flattenWith unicode ref sub rest with
          | none => simp [hs, hr] at h
          | some o2 =>
            simp only [hs, hr, Option.some.injEq] at h
            simp [hsub _ _ hs, ih o2 hr, h]
    · simp only [hty, if_false] at h ⊢
      cases hr : flattenWith unicode ref sub rest with
      | none => simp [hr] at h
      | some o2 =>
        simp only [hr, Option.some.injEq] at h
        simp [ih o2 hr, h]

theorem flatten_succ (ref : Registry) (d : Nat) :
    ∀ es out, flatten unicode ref d es = some out → flatten unicode ref (d + 1) es = some out := by
  induction d with
  | zero =>
    intro es out h
    exact flattenWith_mono ref _ _ (by intro l o hlo; cases hlo) es out h
  | succ d ih =>
    intro es out h
    exact flattenWith_mono ref _ _ (fun l o hlo => ih l o hlo) es out h

theorem flatten_mono (ref : Registry) (es out : List Entry) (d : Nat)
    (h : flatten unicode ref d es = some out) : ∀ k, flatten unicode ref (d + k) es = some out := by
  intro k
  induction k with
  | zero => exact h
  | succ k ih => exact flatten_succ ref (d + k) es out ih

/-- Any two depths at which the list has a flattening give the same one. -/
theorem flatten_unique (ref : Registry) (es out1 out2 : List Entry) (d1 d2 : Nat)
    (h1 : flatten unicode ref d1 es = some out1) (h2 : flatten unicode ref d2 es = some out2) :
    out1 = out2 := by
  have a := flatten_mono ref es out1 d1 h1 d2
  have b := flatten_mono ref es out2 d2 h2 d1
  rw [Nat.add_comm d2 d1, a] at b
  exact Option.some.inj b

theorem flattenWith_some (ref : Registry) (sub : List Entry → Option (List Entry))
    (es : List Entry)
    (h : ∀ e ∈ es, e.Type_ = "include" →
      ∃ r o, ref.lookup (strings.ToUpper unicode e.Value) = some r ∧ sub r.Entry = some o) :
    ∃ out, flattenWith unicode ref sub es = some out := by
  induction es with
  | nil => exact ⟨[], rfl⟩
  | cons e rest ih =>
    obtain ⟨o2, ho2⟩ := ih (fun x hx => h x (List.mem_cons_of_mem _ hx))
    by_cases hty : e.Type_ = "include"
    · obtain ⟨r, o, hr, ho⟩ := h e (List.mem_cons_self _ _) hty
      exact ⟨o ++ o2, by simp [flattenWith, hty, hr, ho, ho2]⟩
    · exact ⟨e :: o2, by simp [flattenWith, hty, ho2]⟩

/-- Includes that nest at most `d` deep and all name lists of the registry have
a flattening at depth `d`. -/
theorem flatten_of_depthLe (ref : Registry) (d : Nat) :
    ∀ es, depthLe unicode ref d es →
      (∀ a, Includes unicode es a → ∀ b, Relation.ReflTransGen (IncludeEdge unicode ref) a b →
        ∃ r, ref.lookup b = some r) →
      ∃ out, flatten unicode ref d es = some out := by
  induction d with
  | zero =>
    intro es hd hex
    refine flattenWith_some ref _ es ?_
    intro e he hty
    obtain ⟨r, hr⟩ := hex _ ⟨e, he, hty, rfl⟩ _ Relation.ReflTransGen.refl
    have := hd e he hty
    rw [hr] at this
    cases this
  | succ d ih =>
    intro es hd hex
    refine flattenWith_some ref _ es ?_
    intro e he hty
    obtain ⟨r, hr⟩ := hex _ ⟨e, he, hty, rfl⟩ _ Relation.ReflTransGen.refl
    obtain ⟨o, ho⟩ := ih r.Entry (hd e he hty r hr) (by
      intro a ha b hab
      exact hex _ ⟨e, he, hty, rfl⟩ b (Relation.ReflTransGen.head ⟨r, hr, ha⟩ hab))
    exact ⟨r, o, hr, ho⟩

/-- C6. When every include reachable from the list names a list of the registry,
the include graph reachable from the list has no cycle, and no name is referred
to by two include occurrences reachable from the list, ParseList returns a
ParsedList whose entries are the recursive in-order depth-first flattening of
the list: every include entry replaced in place by the flattening of the list
it names, every other entry kept. Lists are looked up by upper-cased name, for
any case mapping under which an upper-case form is its own upper-case form. -/
theorem C6_ParseList_refines_flatten (hidem : UpperIdempotent unicode) (list : SiteList)
    (ref : Registry)
    (hex : ∀ b, Reachable unicode ref list b → ∃ r, ref.lookup b = some r)
    (hac : Acyclic unicode ref list)
    (huniq : ∀ d, (referenced unicode ref d list.Entry).Nodup) :
    ∃ pl, ParseList unicode (ref.length + 1) list ref = some (.ok pl) ∧ pl.Name = list.Name ∧
      flatten unicode ref ref.length list.Entry = some pl.Entry ∧
      ∀ d out, flatten unicode ref d list.Entry = some out → out = pl.Entry := by
  obtain ⟨out, hout⟩ := flatten_of_depthLe ref ref.length list.Entry
    (depthLe_of_acyclic ref list hac) (fun a ha b hab => hex b ⟨a, ha, hab⟩)
  obtain ⟨incl1, hloop⟩ := parseLoop_flatten hidem ref ref.length list.Entry [] out hout
    (huniq ref.length) (by intro x hx; cases hx) (by intro x hx; cases hx)
  refine ⟨{ Name := list.Name, Inclusion := incl1, Entry := out }, ?_, rfl, hout, ?_⟩
  · simp only [ParseList, hloop]
  · intro d out1 h1
    exact flatten_unique ref list.Entry out1 out d ref.length h1 hout

theorem exampleRegistry_referenced (d : Nat) :
    referenced ascii exampleRegistry d exampleList.Entry = ["B"] := by
  match d with
  | 0 => rfl
  | 1 => rfl
  | k + 2 => rfl

theorem C6_ParseList_refines_flatten_witness :
    UpperIdempotent ascii ∧
    (∀ b, Reachable ascii exampleRegistry exampleList b → ∃ r, exampleRegistry.lookup b = some r) ∧
      Acyclic ascii exampleRegistry exampleList ∧
      (∀ d, (referenced ascii exampleRegistry d exampleList.Entry).Nodup) ∧
      ∃ pl, ParseList ascii (exampleRegistry.length + 1) exampleList exampleRegistry = some (.ok pl) ∧
        pl.Entry = [⟨"domain", "example.com"⟩, ⟨"keyword", "ads"⟩] :=
  have hex : ∀ b, Reachable ascii exampleRegistry exampleList b →
      ∃ r, exampleRegistry.lookup b = some r := by
    intro b hb
    rw [exampleRegistry_reachable b hb]
    exact ⟨_, rfl⟩
  have huniq : ∀ d, (referenced ascii exampleRegistry d exampleList.Entry).Nodup := by
    intro d
    rw [exampleRegistry_referenced d]
    exact List.nodup_singleton _
  ⟨ascii_UpperIdempotent, hex, exampleRegistry_acyclic, huniq,
    (C6_ParseList_refines_flatten ascii_UpperIdempotent exampleList exampleRegistry hex
      exampleRegistry_acyclic huniq).imp
      (fun pl h => ⟨h.1,
        (h.2.2.2 2 [⟨"domain", "example.com"⟩, ⟨"keyword", "ads"⟩] rfl).symm⟩)⟩

/-! ## Line parsing: `parseEntry` -/

theorem splitChars_ne_nil (sep : Char) (cs : List Char) : splitChars sep cs ≠ [] := by
  cases cs with
  | nil => simp [splitChars]
  | cons c cs =>
    simp only [splitChars]
    by_cases h : c = sep
    · simp [h]
    · simp only [h, if_false]
      cases splitChars sep cs <;> simp

/-- Splitting gives one piece more than there are separators. -/
theorem splitChars_length (sep : Char) (cs : List Char) :
    (splitChars sep cs).length = cs.count sep + 1 := by
  induction cs with
  | nil => simp [splitChars]
  | cons c cs ih =>
    simp only [splitChars]
    by_cases h : c = sep
    · subst h
      simp [ih]
    · simp only [h, if_false]
      have hc : List.count sep (c :: cs) = List.count sep cs := by
        rw [List.count_cons]
        have : (c == sep) = false := by simpa using h
        simp [this]
      rw [hc, ← ih]
      cases hs : splitChars sep cs with
      | nil => exact absurd hs (splitChars_ne_nil sep cs)
      | cons p ps => simp

/-- A sequence without separator is its only piece. -/
theorem splitChars_no_sep (sep : Char) (cs : List Char) (h : sep ∉ cs) :
    splitChars sep cs = [cs] := by
  induction cs with
  | nil => rfl
  | cons c cs ih =>
    have hc : c ≠ sep := fun hcs => h (by simp [hcs])
    have hrest : sep ∉ cs := fun hm => h (List.mem_cons_of_mem _ hm)
    simp [splitChars, hc, ih hrest]

/-- The first piece ends at the first separator. -/
theorem splitChars_append_sep (sep : Char) (a b : List Char) (h : sep ∉ a) :
    splitChars sep (a ++ sep :: b) = a :: splitChars sep b := by
  induction a with
  | nil => simp [splitChars]
  | cons c cs ih =>
    have hc : c ≠ sep := fun hcs => h (by simp [hcs])
    have hrest : sep ∉ cs := fun hm => h (List.mem_cons_of_mem _ hm)
    simp [splitChars, hc, ih hrest]

theorem Split_length (s : String) (sep : Char) :
    (strings.Split s sep).length = s.data.count sep + 1 := by
  simp [strings.Split, splitChars_length]

/-- C15. On a line without a colon parseEntry succeeds, with the tag domain and
the line itself, unchanged, as the value. -/
theorem C15_parseEntry_default_domain (line : String) (h : ':' ∉ line.data) :
    parseEntry unicode line = .ok { Type_ := "domain", Value := line } := by
  simp [parseEntry, strings.Split, splitChars_no_sep ':' line.data h]

theorem C15_parseEntry_default_domain_witness :
    ':' ∉ "Example.COM".data ∧
      parseEntry ascii "Example.COM" = .ok { Type_ := "domain", Value := "Example.COM" } :=
  ⟨by decide, C15_parseEntry_default_domain "Example.COM" (by decide)⟩

/-- The result of parseEntry by the number of colons of the line. -/
theorem parseEntry_by_count (line : String) :
    (line.data.count ':' ≤ 1 → ∃ e, parseEntry unicode line = .ok e) ∧
      (2 ≤ line.data.count ':' → parseEntry unicode line = .error ("Invalid format: " ++ line)) := by
  have hlen := Split_length line ':'
  unfold parseEntry
  rcases hs : strings.Split line ':' with _ | ⟨k, _ | ⟨v, _ | ⟨w, rest⟩⟩⟩
  · rw [hs] at hlen
    simp at hlen
  · rw [hs] at hlen
    simp only [List.length_singleton] at hlen
    exact ⟨fun _ => ⟨_, rfl⟩, fun h2 => by omega⟩
  · rw [hs] at hlen
    simp only [List.length_cons, List.length_nil] at hlen
    exact ⟨fun _ => ⟨_, rfl⟩, fun h2 => by omega⟩
  · rw [hs] at hlen
    simp only [List.length_cons] at hlen
    exact ⟨fun h1 => by omega, fun _ => rfl⟩

/-- C16. parseEntry returns an error exactly when the line holds two or more
colons, and the error is the one for an invalid format; on a line with at most
one colon it succeeds, whatever stands before the colon. -/
theorem C16_parseEntry_error_iff_two_colons (line : String) :
    ((∃ msg, parseEntry unicode line = .error msg) ↔ 2 ≤ line.data.count ':') ∧
      (2 ≤ line.data.count ':' → parseEntry unicode line = .error ("Invalid format: " ++ line)) ∧
      (line.data.count ':' ≤ 1 → ∃ e, parseEntry unicode line = .ok e) := by
  obtain ⟨hok, herr⟩ := parseEntry_by_count line
  refine ⟨⟨?_, fun h => ⟨_, herr h⟩⟩, herr, hok⟩
  rintro ⟨msg, hmsg⟩
  by_contra hlt
  obtain ⟨e, he⟩ := hok (by omega)
  rw [he] at hmsg
  cases hmsg

theorem C16_parseEntry_error_iff_two_colons_witness :
    (2 ≤ "regex:a:b".data.count ':' ∧
        parseEntry ascii "regex:a:b" = .error "Invalid format: regex:a:b") ∧
      ("bogus:x".data.count ':' ≤ 1 ∧ ∃ e, parseEntry ascii "bogus:x" = .ok e) :=
  ⟨⟨by decide, (C16_parseEntry_error_iff_two_colons "regex:a:b").2.1 (by decide)⟩,
    ⟨by decide, (C16_parseEntry_error_iff_two_colons "bogus:x").2.2 (by decide)⟩⟩

/-- A line of the form tag, colon, value, with no other colon. -/
theorem parseEntry_tag_value (t v : String) (ht : ':' ∉ t.data) (hv : ':' ∉ v.data) :
    parseEntry unicode (t ++ ":" ++ v) =
      .ok { Type_ := strings.ToLower unicode t, Value := strings.ToLower unicode v } := by
  have hdata : (t ++ ":" ++ v).data = t.data ++ ':' :: v.data := by
    simp [String.data_append]
  simp [parseEntry, strings.Split, hdata, splitChars_append_sep ':' t.data v.data ht,
    splitChars_no_sep ':' v.data hv]

/-- C19. For colon-free t and v, parseEntry of t, a colon and v succeeds with the
lower-cased t as tag and the lower-cased v as value; hence, lower-casing being
that of Go on the ASCII characters, for a colon-free v the line domain:v is
parsed like the line v exactly when v holds no upper-case letter, that is no
character that lower-casing changes; in ASCII text these are the letters
`A`..`Z`. -/
theorem C19_parseEntry_explicit_tag_folds_case (t v : String)
    (ht : ':' ∉ t.data) (hv : ':' ∉ v.data) :
    parseEntry unicode (t ++ ":" ++ v) =
        .ok { Type_ := strings.ToLower unicode t, Value := strings.ToLower unicode v } ∧
      (AgreesOnAscii unicode →
        (parseEntry unicode ("domain:" ++ v) = parseEntry unicode v ↔
          ∀ c ∈ v.data, unicode.ToLower c = c) ∧
        ((∀ c ∈ v.data, c.toNat < 128) →
          (parseEntry unicode ("domain:" ++ v) = parseEntry unicode v ↔
            ∀ c ∈ v.data, c.isUpper = false))) := by
  refine ⟨parseEntry_tag_value t v ht hv, ?_⟩
  intro hascii
  have hlit : ("domain:" : String) = "domain" ++ ":" := by decide
  have hplain : parseEntry unicode v = .ok { Type_ := "domain", Value := v } := by
    simp [parseEntry, strings.Split, splitChars_no_sep ':' v.data hv]
  have hdom : strings.ToLower unicode "domain" = "domain" :=
    ToLower_knownTypes hascii "domain" (by decide)
  have hiff : parseEntry unicode ("domain:" ++ v) = parseEntry unicode v ↔
      ∀ c ∈ v.data, unicode.ToLower c = c := by
    rw [hlit, parseEntry_tag_value "domain" v (by decide) hv, hplain, hdom,
      ← ToLower_eq_self_iff]
    constructor
    · intro h
      have h1 := Except.ok.inj h
      exact congrArg Entry.Value h1
    · intro h
      rw [h]
  refine ⟨hiff, ?_⟩
  intro hv128
  rw [hiff]
  constructor
  · intro h c hc
    have h1 := h c hc
    rw [(hascii c (hv128 c hc)).2] at h1
    exact (Char_toLower_eq_self_iff c).1 h1
  · intro h c hc
    rw [(hascii c (hv128 c hc)).2]
    exact (Char_toLower_eq_self_iff c).2 (h c hc)

theorem C19_parseEntry_explicit_tag_folds_case_witness :
    (':' ∉ "REGEX".data ∧ ':' ∉ "A.*B".data) ∧
      parseEntry ascii ("REGEX" ++ ":" ++ "A.*B") =
        .ok { Type_ := strings.ToLower ascii "REGEX", Value := strings.ToLower ascii "A.*B" } ∧
      (AgreesOnAscii ascii →
        (parseEntry ascii ("domain:" ++ "A.*B") = parseEntry ascii "A.*B" ↔
          ∀ c ∈ "A.*B".data, ascii.ToLower c = c) ∧
        ((∀ c ∈ "A.*B".data, c.toNat < 128) →
          (parseEntry ascii ("domain:" ++ "A.*B") = parseEntry ascii "A.*B" ↔
            ∀ c ∈ "A.*B".data, c.isUpper = false))) :=
  ⟨⟨by decide, by decide⟩,
    C19_parseEntry_explicit_tag_folds_case "REGEX" "A.*B" (by decide) (by decide)⟩

/-! ## Provenance of the resolved entries -/

/-- A pass appends to `newEntryList`, and what it appends holds the non-include
entries of the list it ranges over, in their order. -/
theorem pass_keeps_ownRules (ref : Registry) (es : List Entry) :
    ∀ st st1, pass unicode ref st es = .ok st1 →
      ∃ added, st1.newEntryList = st.newEntryList ++ added ∧
        List.Sublist (ownRules es) added := by
  induction es with
  | nil =>
    intro st st1 h
    simp only [pass] at h
    cases h
    exact ⟨[], by simp, by simp [ownRules]⟩
  | cons e rest ih =>
    intro st st1 h
    simp only [pass] at h
    cases hs : passStep unicode ref st e with
    | error msg => simp [hs] at h
    | ok st0 =>
      simp only [hs] at h
      obtain ⟨added, hadd, hsub⟩ := ih st0 st1 h
      rcases passStep_ok_cases hs with ⟨hne, rfl⟩ | ⟨hty, _, rfl⟩ | ⟨hty, _, r, _, rfl⟩
      · refine ⟨e :: added, by simp [hadd], ?_⟩
        have : ownRules (e :: rest) = e :: ownRules rest := by
          simp [ownRules, hne]
        rw [this]
        exact hsub.cons₂ e
      · refine ⟨added, hadd, ?_⟩
        have : ownRules (e :: rest) = ownRules rest := by
          simp [ownRules, hty]
        rw [this]
        exact hsub
      · refine ⟨r.Entry ++ added, by simp [hadd], ?_⟩
        have : ownRules (e :: rest) = ownRules rest := by
          simp [ownRules, hty]
        rw [this]
        exact hsub.trans (List.sublist_append_right _ _)

theorem ownRules_idem (es : List Entry) : ownRules (ownRules es) = ownRules es := by
  simp [ownRules, List.filter_filter]

theorem parseLoop_keeps_ownRules (ref : Registry) (n : Nat) :
    ∀ incl es incl2 out, parseLoop unicode ref n incl es = some (.ok (incl2, out)) →
      List.Sublist (ownRules es) out := by
  induction n with
  | zero => intro incl es incl2 out h; simp [parseLoop] at h
  | succ n ih =>
    intro incl es incl2 out h
    simp only [parseLoop] at h
    cases hp : pass unicode ref { Inclusion := incl, newEntryList := [], hasInclude := false } es with
    | error msg => simp [hp] at h
    | ok st =>
      simp only [hp] at h
      obtain ⟨added, hadd, hsub⟩ := pass_keeps_ownRules ref es _ st hp
      simp only [List.nil_append] at hadd
      by_cases hh : st.hasInclude = true
      · simp only [hh, if_true] at h
        have h2 := ih _ _ _ _ h
        have h3 : List.Sublist (ownRules (ownRules es)) (ownRules st.newEntryList) := by
          rw [hadd]
          exact hsub.filter _
        rw [ownRules_idem] at h3
        exact h3.trans h2
      · simp only [hh, Bool.false_eq_true, if_false, Option.some.injEq, Except.ok.injEq,
          Prod.mk.injEq] at h
        rw [← h.2, hadd]
        exact hsub

theorem ownRules_append (xs ys : List Entry) :
    ownRules (xs ++ ys) = ownRules xs ++ ownRules ys := by
  simp [ownRules]

theorem ownRules_eq_self (es : List Entry) (h : ∀ e ∈ es, e.Type_ ≠ "include") :
    ownRules es = es := by
  unfold ownRules
  rw [List.filter_eq_self]
  intro e he
  simpa using h e he

/-- What a pass appends, counted with repetitions: the non-include entries of the
list it ranges over and, for every include it expands, those of the list stored
under the upper-cased value; `news` holds these names, one per expansion, and
they are the names that the pass adds to the Inclusion set. -/
theorem pass_accounts (ref : Registry) (es : List Entry) :
    ∀ st st1, pass unicode ref st es = .ok st1 →
      ∃ (news : List String) (added : List Entry),
        st1.newEntryList = st.newEntryList ++ added ∧
        (∀ k, k ∈ st1.Inclusion ↔ k ∈ st.Inclusion ∨ k ∈ news) ∧
        List.Perm (ownRules added) (ownRules es ++ news.flatMap (ownRulesOf ref)) := by
  induction es with
  | nil =>
    intro st st1 h
    simp only [pass] at h
    cases h
    exact ⟨[], [], by simp, by simp, by simp [ownRules]⟩
  | cons e rest ih =>
    intro st st1 h
    simp only [pass] at h
    cases hs : passStep unicode ref st e with
    | error msg => simp [hs] at h
    | ok st0 =>
      simp only [hs] at h
      obtain ⟨news, added, hadd, hincl, hperm⟩ := ih st0 st1 h
      rcases passStep_ok_cases hs with ⟨hne, rfl⟩ | ⟨hty, _, rfl⟩ | ⟨hty, _, r, hr, rfl⟩
      · refine ⟨news, e :: added, by simp [hadd], hincl, ?_⟩
        have h1 : ownRules (e :: added) = e :: ownRules added := by simp [ownRules, hne]
        have h2 : ownRules (e :: rest) = e :: ownRules rest := by simp [ownRules, hne]
        rw [h1, h2, List.cons_append]
        exact List.Perm.cons e hperm
      · refine ⟨news, added, hadd, hincl, ?_⟩
        have h2 : ownRules (e :: rest) = ownRules rest := by simp [ownRules, hty]
        rw [h2]
        exact hperm
      · refine ⟨strings.ToUpper unicode e.Value :: news, r.Entry ++ added, by simp [hadd],
          ?_, ?_⟩
        · intro k
          rw [hincl k]
          simp only [List.mem_insert_iff, List.mem_cons]
          tauto
        · have h2 : ownRules (e :: rest) = ownRules rest := by simp [ownRules, hty]
          have h3 : ownRulesOf ref (strings.ToUpper unicode e.Value) = ownRules r.Entry := by
            simp [ownRulesOf, hr]
          rw [h2, ownRules_append, List.flatMap_cons, h3]
          refine (List.Perm.append_left _ hperm).trans ?_
          rw [← List.append_assoc, ← List.append_assoc]
          exact List.Perm.append_right _ List.perm_append_comm

/-- The result of the loop, counted with repetitions. -/
theorem parseLoop_accounts (ref : Registry) (n : Nat) :
    ∀ incl es incl2 out, parseLoop unicode ref n incl es = some (.ok (incl2, out)) →
      ∀ (base : List Entry) (incs : List String),
        List.Perm (ownRules es) (base ++ incs.flatMap (ownRulesOf ref)) →
        (∀ k, k ∈ incs ↔ k ∈ incl) →
        ∃ incs2 : List String, (∀ k, k ∈ incs2 ↔ k ∈ incl2) ∧
          List.Perm out (base ++ incs2.flatMap (ownRulesOf ref)) := by
  induction n with
  | zero => intro incl es incl2 out h; simp [parseLoop] at h
  | succ n ih =>
    intro incl es incl2 out h base incs hperm hmem
    have hnoinc := parseLoop_no_include ref (n + 1) incl es incl2 out h
    simp only [parseLoop] at h
    cases hp : pass unicode ref { Inclusion := incl, newEntryList := [], hasInclude := false }
        es with
    | error msg => simp [hp] at h
    | ok st =>
      simp only [hp] at h
      obtain ⟨news, added, hadd, hincl, hacc⟩ := pass_accounts ref es _ st hp
      simp only [List.nil_append] at hadd
      have hperm2 : List.Perm (ownRules st.newEntryList)
          (base ++ (incs ++ news).flatMap (ownRulesOf ref)) := by
        rw [hadd, List.flatMap_append, ← List.append_assoc]
        exact hacc.trans (List.Perm.append_right _ hperm)
      have hmem2 : ∀ k, k ∈ incs ++ news ↔ k ∈ st.Inclusion := by
        intro k
        rw [hincl k, List.mem_append, hmem k]
      by_cases hh : st.hasInclude = true
      · simp only [hh, if_true] at h
        exact ih _ _ _ _ h base (incs ++ news) hperm2 hmem2
      · simp only [hh, Bool.false_eq_true, if_false, Option.some.injEq, Except.ok.injEq,
          Prod.mk.injEq] at h
        refine ⟨incs ++ news, ?_, ?_⟩
        · intro k
          rw [← h.1]
          exact hmem2 k
        · have hself : ownRules out = out := ownRules_eq_self out hnoinc
          rw [← hself, ← h.2]
          exact hperm2

/-- C11. Whenever ParseList succeeds, the entries of the source list other than
its includes occur in the returned entries as a subsequence, in their original
order and unchanged; and the returned entries are, counted with repetitions,
these entries together with the non-include entries of the list stored under
each name of the returned Inclusion set, taken once for every expansion of that
list and at least once: no entry is dropped or merged because an equal entry is
present. -/
theorem C11_ParseList_keeps_own_rules (fuel : Nat) (list : SiteList) (ref : Registry)
    (pl : ParsedList) (h : ParseList unicode fuel list ref = some (.ok pl)) :
    List.Sublist (ownRules list.Entry) pl.Entry ∧
      ∃ incs : List String, (∀ k, k ∈ incs ↔ k ∈ pl.Inclusion) ∧
        List.Perm pl.Entry (ownRules list.Entry ++ incs.flatMap (ownRulesOf ref)) := by
  unfold ParseList at h
  cases hl : parseLoop unicode ref fuel [] list.Entry with
  | none => simp [hl] at h
  | some x =>
    cases x with
    | error msg => simp [hl] at h
    | ok p =>
      obtain ⟨incl2, out⟩ := p
      simp only [hl, Option.some.injEq, Except.ok.injEq] at h
      rw [← h]
      exact ⟨parseLoop_keeps_ownRules ref fuel _ _ _ _ hl,
        parseLoop_accounts ref fuel _ _ _ _ hl (ownRules list.Entry) [] (by simp) (by simp)⟩

theorem C11_ParseList_keeps_own_rules_witness :
    ParseList ascii 2 sameRuleList sameRuleRegistry =
        some (.ok ⟨"A", ["B"], [⟨"domain", "x"⟩, ⟨"domain", "x"⟩]⟩) ∧
      List.Sublist (ownRules sameRuleList.Entry)
        [Entry.mk "domain" "x", Entry.mk "domain" "x"] ∧
      ∃ incs : List String, (∀ k, k ∈ incs ↔ k ∈ ["B"]) ∧
        List.Perm [Entry.mk "domain" "x", Entry.mk "domain" "x"]
          (ownRules sameRuleList.Entry ++ incs.flatMap (ownRulesOf sameRuleRegistry)) :=
  ⟨rfl, @C11_ParseList_keeps_own_rules ascii 2 sameRuleList sameRuleRegistry
    ⟨"A", ["B"], [⟨"domain", "x"⟩, ⟨"domain", "x"⟩]⟩ rfl⟩

theorem FromSource_mono {ref : Registry} {list : SiteList} {incl incl1 : List String}
    {e : Entry} (hsub : ∀ x ∈ incl, x ∈ incl1) (h : FromSource ref list incl e) :
    FromSource ref list incl1 e := by
  rcases h with h | ⟨k, hk, r, hr, he⟩
  · exact Or.inl h
  · exact Or.inr ⟨k, hsub k hk, r, hr, he⟩

/-- A pass keeps the Inclusion set a set of upper-cased registry keys and keeps
every entry traceable to the source list or to an included list. -/
theorem pass_provenance (ref : Registry) (list : SiteList) (es : List Entry) :
    ∀ st st1, pass unicode ref st es = .ok st1 →
      InclusionKeys unicode ref st.Inclusion →
      (∀ e ∈ es, FromSource ref list st.Inclusion e) →
      (∀ e ∈ st.newEntryList, FromSource ref list st.Inclusion e) →
      InclusionKeys unicode ref st1.Inclusion ∧ (∀ x ∈ st.Inclusion, x ∈ st1.Inclusion) ∧
        ∀ e ∈ st1.newEntryList, FromSource ref list st1.Inclusion e := by
  induction es with
  | nil =>
    intro st st1 h hk _ hnew
    simp only [pass] at h
    cases h
    exact ⟨hk, fun x hx => hx, hnew⟩
  | cons e rest ih =>
    intro st st1 h hk hes hnew
    simp only [pass] at h
    cases hs : passStep unicode ref st e with
    | error msg => simp [hs] at h
    | ok st0 =>
      simp only [hs] at h
      have hk0 := passStep_InclusionKeys hk hs
      have hgrow : ∀ x ∈ st.Inclusion, x ∈ st0.Inclusion := by
        rcases passStep_ok_cases hs with ⟨_, rfl⟩ | ⟨_, _, rfl⟩ | ⟨_, _, r, _, rfl⟩
        · exact fun x hx => hx
        · exact fun x hx => hx
        · exact fun x hx => List.mem_insert_iff.2 (Or.inr hx)
      have hnew0 : ∀ x ∈ st0.newEntryList, FromSource ref list st0.Inclusion x := by
        rcases passStep_ok_cases hs with ⟨_, rfl⟩ | ⟨_, _, rfl⟩ | ⟨_, _, r, hr, rfl⟩
        · intro x hx
          rcases List.mem_append.1 hx with hx | hx
          · exact hnew x hx
          · rw [List.mem_singleton.1 hx]
            exact hes e (List.mem_cons_self _ _)
        · exact hnew
        · intro x hx
          rcases List.mem_append.1 hx with hx | hx
          · exact FromSource_mono hgrow (hnew x hx)
          · exact Or.inr ⟨_, List.mem_insert_iff.2 (Or.inl rfl), r, hr, hx⟩
      obtain ⟨a, b, c⟩ := ih st0 st1 h hk0
        (fun x hx => FromSource_mono hgrow (hes x (List.mem_cons_of_mem _ hx))) hnew0
      exact ⟨a, fun x hx => b x (hgrow x hx), c⟩

theorem parseLoop_provenance (ref : Registry) (list : SiteList) (n : Nat) :
    ∀ incl es incl2 out, parseLoop unicode ref n incl es = some (.ok (incl2, out)) →
      InclusionKeys unicode ref incl → (∀ e ∈ es, FromSource ref list incl e) →
      InclusionKeys unicode ref incl2 ∧ ∀ e ∈ out, FromSource ref list incl2 e := by
  induction n with
  | zero => intro incl es incl2 out h; simp [parseLoop] at h
  | succ n ih =>
    intro incl es incl2 out h hk hes
    simp only [parseLoop] at h
    cases hp : pass unicode ref { Inclusion := incl, newEntryList := [], hasInclude := false } es with
    | error msg => simp [hp] at h
    | ok st =>
      simp only [hp] at h
      obtain ⟨a, _, c⟩ := pass_provenance ref list es _ st hp hk hes
        (by intro e he; cases he)
      by_cases hh : st.hasInclude = true
      · simp only [hh, if_true] at h
        exact ih _ _ _ _ h a c
      · simp only [hh, Bool.false_eq_true, if_false, Option.some.injEq, Except.ok.injEq,
          Prod.mk.injEq] at h
        rw [← h.1, ← h.2]
        exact ⟨a, c⟩

/-- C18. Whenever ParseList succeeds, every name in the returned Inclusion set is
an upper-cased name, and so its own upper-casing when an upper-case form is its
own upper-case form, and it is a key of the registry; and every returned entry is
a non-include entry of the source list or of a list of the registry stored under
a name in the returned Inclusion set. -/
theorem C18_ParseList_provenance (fuel : Nat) (list : SiteList) (ref : Registry)
    (pl : ParsedList) (h : ParseList unicode fuel list ref = some (.ok pl)) :
    (∀ x ∈ pl.Inclusion, (∃ v, x = strings.ToUpper unicode v) ∧
        (UpperIdempotent unicode → strings.ToUpper unicode x = x) ∧
        ∃ r, ref.lookup x = some r) ∧
      ∀ e ∈ pl.Entry, e.Type_ ≠ "include" ∧
        (e ∈ list.Entry ∨ ∃ k ∈ pl.Inclusion, ∃ r, ref.lookup k = some r ∧ e ∈ r.Entry) := by
  unfold ParseList at h
  cases hl : parseLoop unicode ref fuel [] list.Entry with
  | none => simp [hl] at h
  | some x =>
    cases x with
    | error msg => simp [hl] at h
    | ok p =>
      obtain ⟨incl2, out⟩ := p
      simp only [hl, Option.some.injEq, Except.ok.injEq] at h
      rw [← h]
      obtain ⟨a, b⟩ := parseLoop_provenance ref list fuel _ _ _ _ hl
        (by intro x hx; cases hx) (fun e he => Or.inl he)
      exact ⟨fun x hx => ⟨(a x hx).1, fun hidem => InclusionKeys_fixed hidem a x hx,
          (a x hx).2⟩,
        fun e he => ⟨parseLoop_no_include ref fuel _ _ _ _ hl e he, b e he⟩⟩

theorem C18_ParseList_provenance_witness :
    ParseList ascii 2 exampleList exampleRegistry =
        some (.ok ⟨"A", ["B"], [⟨"domain", "example.com"⟩, ⟨"keyword", "ads"⟩]⟩) ∧
      (∀ x ∈ ["B"], (∃ v, x = strings.ToUpper ascii v) ∧
        (UpperIdempotent ascii → strings.ToUpper ascii x = x) ∧
        ∃ r, exampleRegistry.lookup x = some r) ∧
      ∀ e ∈ [Entry.mk "domain" "example.com", Entry.mk "keyword" "ads"],
        e.Type_ ≠ "include" ∧
          (e ∈ exampleList.Entry ∨
            ∃ k ∈ ["B"], ∃ r, exampleRegistry.lookup k = some r ∧ e ∈ r.Entry) :=
  ⟨rfl, @C18_ParseList_provenance ascii 2 exampleList exampleRegistry
    ⟨"A", ["B"], [⟨"domain", "example.com"⟩, ⟨"keyword", "ads"⟩]⟩ rfl⟩

/-! ## The already-included guard -/

/-- A pass of the functional model moves through running states. -/
theorem Running_pass (ref : Registry) (list : SiteList) (es : List Entry) :
    ∀ st st1, Running unicode ref list st es → pass unicode ref st es = .ok st1 → Running unicode ref list st1 [] := by
  induction es with
  | nil =>
    intro st st1 hrun h
    simp only [pass] at h
    cases h
    exact hrun
  | cons e rest ih =>
    intro st st1 hrun h
    simp only [pass] at h
    cases hs : passStep unicode ref st e with
    | error msg => simp [hs] at h
    | ok st0 =>
      simp only [hs] at h
      exact ih st0 st1 (Running.step hrun hs) h

/-- In every running state the Inclusion set holds upper-cased names only. -/
theorem Running_inclusion_upper (ref : Registry) (list : SiteList) (st : PassState)
    (es : List Entry) (h : Running unicode ref list st es) :
    ∀ x ∈ st.Inclusion, ∃ v, x = strings.ToUpper unicode v := by
  induction h with
  | start => intro x hx; cases hx
  | step _ hs ih =>
    rcases passStep_ok_cases hs with ⟨_, rfl⟩ | ⟨_, _, rfl⟩ | ⟨_, _, r, _, rfl⟩
    · exact ih
    · exact ih
    · intro x hx
      rcases List.mem_insert_iff.1 hx with rfl | hx
      · exact ⟨_, rfl⟩
      · exact ih x hx
  | again _ _ ih => exact ih

/-- C17. In every state of a run of ParseList, an include entry whose value holds
a letter of `a`..`z` is not in the Inclusion set, so the guard does not skip it:
the loop body fails with the error for a missing list, or it appends the entries
of the list stored under the upper-cased value and sets hasInclude. An include
entry that the guard does skip has a value that is an upper-cased name and equal
to its own upper-casing. The case mapping is any mapping that is that of Go on
the ASCII characters and under which an upper-case form is its own upper-case
form. -/
theorem C17_guard_tests_raw_value (hascii : AgreesOnAscii unicode)
    (hidem : UpperIdempotent unicode) (ref : Registry) (list : SiteList) (st : PassState)
    (e : Entry) (rest : List Entry) (hrun : Running unicode ref list st (e :: rest))
    (hty : e.Type_ = "include") :
    ((∃ c ∈ e.Value.data, c.isLower = true) →
      e.Value ∉ st.Inclusion ∧
      ((ref.lookup (strings.ToUpper unicode e.Value) = none ∧
          passStep unicode ref st e = .error (e.Value ++ " not found.")) ∨
        ∃ r, ref.lookup (strings.ToUpper unicode e.Value) = some r ∧
          passStep unicode ref st e =
            .ok { Inclusion := st.Inclusion.insert (strings.ToUpper unicode e.Value),
                  newEntryList := st.newEntryList ++ r.Entry,
                  hasInclude := true })) ∧
    (e.Value ∈ st.Inclusion →
      (∃ v, e.Value = strings.ToUpper unicode v) ∧
        strings.ToUpper unicode e.Value = e.Value ∧ passStep unicode ref st e = .ok st) := by
  have hup := Running_inclusion_upper ref list st _ hrun
  have hfixed : e.Value ∈ st.Inclusion → strings.ToUpper unicode e.Value = e.Value := by
    intro hmem
    obtain ⟨v, hv⟩ := hup _ hmem
    rw [hv]
    exact ToUpper_ToUpper hidem v
  constructor
  · intro hlow
    have hnot : e.Value ∉ st.Inclusion :=
      fun hmem => ToUpper_ne_of_lower hascii e.Value hlow (hfixed hmem)
    refine ⟨hnot, ?_⟩
    cases hl : ref.lookup (strings.ToUpper unicode e.Value) with
    | none =>
      left
      exact ⟨rfl, by simp [passStep, hty, hnot, hl]⟩
    | some r =>
      right
      exact ⟨r, rfl, by simp [passStep, hty, hnot, hl]⟩
  · intro hmem
    exact ⟨hup _ hmem, hfixed hmem, by simp [passStep, hty, hmem]⟩

theorem dupSecondState_running :
    Running ascii dupRegistry dupList dupSecondState [⟨"include", "b"⟩] :=
  Running.step (Running.start : Running ascii dupRegistry dupList _ dupList.Entry) rfl

theorem C17_guard_tests_raw_value_witness :
    AgreesOnAscii ascii ∧ UpperIdempotent ascii ∧
    Running ascii dupRegistry dupList dupSecondState [⟨"include", "b"⟩] ∧
      (((∃ c ∈ (Entry.mk "include" "b").Value.data, c.isLower = true) →
        (Entry.mk "include" "b").Value ∉ dupSecondState.Inclusion ∧
        ((dupRegistry.lookup (strings.ToUpper ascii (Entry.mk "include" "b").Value) = none ∧
            passStep ascii dupRegistry dupSecondState ⟨"include", "b"⟩ =
              .error ((Entry.mk "include" "b").Value ++ " not found.")) ∨
          ∃ r, dupRegistry.lookup (strings.ToUpper ascii (Entry.mk "include" "b").Value) = some r ∧
            passStep ascii dupRegistry dupSecondState ⟨"include", "b"⟩ =
              .ok { Inclusion := dupSecondState.Inclusion.insert
                      (strings.ToUpper ascii (Entry.mk "include" "b").Value),
                    newEntryList := dupSecondState.newEntryList ++ r.Entry,
                    hasInclude := true })) ∧
      ((Entry.mk "include" "b").Value ∈ dupSecondState.Inclusion →
        (∃ v, (Entry.mk "include" "b").Value = strings.ToUpper ascii v) ∧
        strings.ToUpper ascii (Entry.mk "include" "b").Value = (Entry.mk "include" "b").Value ∧
          passStep ascii dupRegistry dupSecondState ⟨"include", "b"⟩ = .ok dupSecondState)) :=
  ⟨ascii_AgreesOnAscii, ascii_UpperIdempotent, dupSecondState_running,
    C17_guard_tests_raw_value ascii_AgreesOnAscii ascii_UpperIdempotent dupRegistry dupList
      dupSecondState ⟨"include", "b"⟩ [] dupSecondState_running rfl⟩

/-! ## The build loop of `main` -/

theorem register_RegistryOfMain (ref : Registry) (list : SiteList)
    (h : RegistryOfMain ref) : RegistryOfMain (register ref list) := by
  obtain ⟨hnd, hname⟩ := h
  constructor
  · simp only [register, List.map_cons, List.nodup_cons]
    constructor
    · intro hmem
      obtain ⟨p, hp, hpk⟩ := List.mem_map.1 hmem
      have := (List.mem_filter.1 hp).2
      simp only [ne_eq, decide_not, Bool.not_eq_eq_eq_not, Bool.not_true,
        decide_eq_false_iff_not] at this
      exact this hpk
    · exact hnd.sublist ((List.filter_sublist _).map Prod.fst)
  · intro p hp
    rcases List.mem_cons.1 hp with rfl | hp
    · rfl
    · exact hname p (List.mem_filter.1 hp).1

/-- Whatever lists `main` registers, each list of its registry is stored once
and under its own name. -/
theorem registry_of_main (lists : List SiteList) :
    RegistryOfMain (lists.foldl register []) := by
  have key : ∀ (ls : List SiteList) (ref : Registry), RegistryOfMain ref →
      RegistryOfMain (ls.foldl register ref) := by
    intro ls
    induction ls with
    | nil => intro ref h; exact h
    | cons l ls ih => intro ref h; exact ih _ (register_RegistryOfMain ref l h)
  exact key lists [] ⟨by simp, by intro p hp; cases hp⟩

theorem siteOf_mono (ref : Registry) (list : SiteList) (n m : Nat) (hnm : n ≤ m)
    (r : Except String GeoSite) (h : siteOf unicode n ref list = some r) :
    siteOf unicode m ref list = some r := by
  unfold siteOf at h ⊢
  cases hp : ParseList unicode n list ref with
  | none => simp [hp] at h
  | some x =>
    rw [ParseList_mono list ref n m hnm x hp]
    simpa [hp] using h

/-- The group of a list is named after the list. -/
theorem siteOf_name (ref : Registry) (list : SiteList) (n : Nat) (g : GeoSite)
    (h : siteOf unicode n ref list = some (.ok g)) : g.CountryCode = list.Name := by
  unfold siteOf at h
  cases hp : ParseList unicode n list ref with
  | none => simp [hp] at h
  | some x =>
    cases x with
    | error msg => simp [hp] at h
    | ok pl =>
      simp only [hp, Option.some.injEq] at h
      have hname : pl.Name = list.Name := by
        unfold ParseList at hp
        cases hl : parseLoop unicode ref n [] list.Entry with
        | none => simp [hl] at hp
        | some y =>
          cases y with
          | error msg => simp [hl] at hp
          | ok q =>
            simp only [hl, Option.some.injEq, Except.ok.injEq] at hp
            rw [← hp]
      unfold ParsedList.toProto at h
      cases ht : toProtoLoop [] pl.Entry with
      | error msg => simp [ht] at h
      | ok ds =>
        simp only [ht, Except.ok.injEq] at h
        rw [← h]
        exact hname

/-- The build loop succeeds exactly when the loop body succeeds on every list,
and then appends the groups of the lists in the order of the iteration. -/
theorem buildLoop_ok_iff (n : Nat) (ref : Registry) (order : List (String × SiteList)) :
    ∀ acc gs, buildLoop unicode n ref acc order = some (.ok gs) ↔
      ∃ sites, gs = acc ++ sites ∧
        List.Forall₂ (fun p g => siteOf unicode n ref p.2 = some (.ok g)) order sites := by
  induction order with
  | nil =>
    intro acc gs
    simp only [buildLoop, Option.some.injEq, Except.ok.injEq]
    constructor
    · intro h
      exact ⟨[], by simp [h], List.Forall₂.nil⟩
    · rintro ⟨sites, h1, h2⟩
      cases h2
      simp [h1]
  | cons p rest ih =>
    intro acc gs
    simp only [buildLoop]
    cases hs : siteOf unicode n ref p.2 with
    | none =>
      constructor
      · intro h; cases h
      · rintro ⟨sites, _, h2⟩
        cases h2 with
        | cons hhead _ => rw [hs] at hhead; cases hhead
    | some x =>
      cases x with
      | error msg =>
        constructor
        · intro h
          simp only [Option.some.injEq] at h
          cases h
        · rintro ⟨sites, _, h2⟩
          cases h2 with
          | cons hhead _ => rw [hs] at hhead; cases hhead
      | ok site =>
        simp only []
        rw [ih]
        constructor
        · rintro ⟨sites, h1, h2⟩
          exact ⟨site :: sites, by simp [h1], List.Forall₂.cons hs h2⟩
        · rintro ⟨sites, h1, h2⟩
          cases h2 with
          | cons hhead htail =>
            rw [hs] at hhead
            cases hhead
            exact ⟨_, by simp [h1], htail⟩

theorem build_ok_iff (n : Nat) (ref : Registry) (order : List (String × SiteList))
    (c : GeoSiteList) :
    build unicode n order ref = some (.ok c) ↔
      List.Forall₂ (fun p g => siteOf unicode n ref p.2 = some (.ok g)) order c.Entry := by
  unfold build
  constructor
  · intro h
    cases hb : buildLoop unicode n ref [] order with
    | none => simp [hb] at h
    | some x =>
      cases x with
      | error msg => simp [hb] at h
      | ok gs =>
        simp only [hb, Option.some.injEq, Except.ok.injEq] at h
        obtain ⟨sites, h1, h2⟩ := (buildLoop_ok_iff n ref order [] gs).1 hb
        rw [← h]
        simpa [h1] using h2
  · intro h
    have hb : buildLoop unicode n ref [] order = some (.ok c.Entry) :=
      (buildLoop_ok_iff n ref order [] c.Entry).2 ⟨c.Entry, by simp, h⟩
    simp [hb]

/-- Budgets under which each list of a finite iteration succeeds can be replaced
by one budget for all. -/
theorem common_budget (ref : Registry) (order : List (String × SiteList))
    (h : ∀ p ∈ order, ∃ n g, siteOf unicode n ref p.2 = some (.ok g)) :
    ∃ n, ∀ p ∈ order, ∃ g, siteOf unicode n ref p.2 = some (.ok g) := by
  induction order with
  | nil => exact ⟨0, by intro p hp; cases hp⟩
  | cons q rest ih =>
    obtain ⟨n1, hn1⟩ := ih (fun p hp => h p (List.mem_cons_of_mem _ hp))
    obtain ⟨n2, g2, hg2⟩ := h q (List.mem_cons_self _ _)
    refine ⟨max n1 n2, ?_⟩
    intro p hp
    rcases List.mem_cons.1 hp with rfl | hp
    · exact ⟨g2, siteOf_mono ref _ n2 _ (le_max_right _ _) _ hg2⟩
    · obtain ⟨g, hg⟩ := hn1 p hp
      exact ⟨g, siteOf_mono ref _ n1 _ (le_max_left _ _) _ hg⟩

theorem forall₂_of_forall_exists {α β : Type} (R : α → β → Prop) (l : List α)
    (h : ∀ a ∈ l, ∃ b, R a b) : ∃ bs, List.Forall₂ R l bs := by
  induction l with
  | nil => exact ⟨[], List.Forall₂.nil⟩
  | cons a l ih =>
    obtain ⟨bs, hbs⟩ := ih (fun x hx => h x (List.mem_cons_of_mem _ hx))
    obtain ⟨b, hb⟩ := h a (List.mem_cons_self _ _)
    exact ⟨b :: bs, List.Forall₂.cons hb hbs⟩

theorem forall₂_mem_left {α β : Type} {R : α → β → Prop} {l : List α} {bs : List β}
    (h : List.Forall₂ R l bs) : ∀ a ∈ l, ∃ b ∈ bs, R a b := by
  induction h with
  | nil => intro a ha; cases ha
  | cons hab _ ih =>
    intro x hx
    rcases List.mem_cons.1 hx with rfl | hx
    · exact ⟨_, List.mem_cons_self _ _, hab⟩
    · obtain ⟨b, hb, hr⟩ := ih x hx
      exact ⟨b, List.mem_cons_of_mem _ hb, hr⟩

/-- The names of the groups are the keys of the iteration, in its order. -/
theorem forall₂_names (n : Nat) (ref : Registry) (order : List (String × SiteList))
    (gs : List GeoSite) (hname : ∀ p ∈ order, p.2.Name = p.1)
    (h : List.Forall₂ (fun p g => siteOf unicode n ref p.2 = some (.ok g)) order gs) :
    gs.map GeoSite.CountryCode = order.map Prod.fst := by
  induction h with
  | nil => rfl
  | cons hab _ ih =>
    simp only [List.map_cons]
    rw [ih (fun p hp => hname p (List.mem_cons_of_mem _ hp)),
      siteOf_name ref _ n _ hab, hname _ (List.mem_cons_self _ _)]

theorem siteOf_ok_iff (n : Nat) (ref : Registry) (list : SiteList) (g : GeoSite) :
    siteOf unicode n ref list = some (.ok g) ↔
      ∃ pl, ParseList unicode n list ref = some (.ok pl) ∧ pl.toProto = .ok g := by
  unfold siteOf
  cases hp : ParseList unicode n list ref with
  | none => simp
  | some x =>
    cases x with
    | error msg => simp
    | ok pl => simp

theorem siteOf_error_iff (n : Nat) (ref : Registry) (list : SiteList) (msg : String) :
    siteOf unicode n ref list = some (.error msg) ↔
      (ParseList unicode n list ref = some (.error msg) ∨
        ∃ pl, ParseList unicode n list ref = some (.ok pl) ∧ pl.toProto = .error msg) := by
  unfold siteOf
  cases hp : ParseList unicode n list ref with
  | none => simp
  | some x =>
    cases x with
    | error m => simp
    | ok pl => simp

theorem forall₂_imp_mem {α β : Type} {R S : α → β → Prop} {l : List α} {bs : List β}
    (h : List.Forall₂ R l bs) (himp : ∀ a ∈ l, ∀ b, R a b → S a b) :
    List.Forall₂ S l bs := by
  induction h with
  | nil => exact List.Forall₂.nil
  | cons hab _ ih =>
    exact List.Forall₂.cons (himp _ (List.mem_cons_self _ _) _ hab)
      (ih (fun a ha b hr => himp a (List.mem_cons_of_mem _ ha) b hr))

/-- A list on which the loop body fails under some budget keeps the build loop
from finishing with a container under any budget. -/
theorem build_not_ok_of_failure (ref : Registry) (order : List (String × SiteList))
    (p : String × SiteList) (hp : p ∈ order) (m : Nat) (msg : String)
    (hfail : siteOf unicode m ref p.2 = some (.error msg)) (n : Nat) (c : GeoSiteList) :
    build unicode n order ref ≠ some (.ok c) := by
  intro hb
  obtain ⟨g, _, hg⟩ := forall₂_mem_left ((build_ok_iff n ref order c).1 hb) p hp
  have h1 := siteOf_mono ref p.2 n (max n m) (le_max_left _ _) _ hg
  have h2 := siteOf_mono ref p.2 m (max n m) (le_max_right _ _) _ hfail
  rw [h1] at h2
  cases h2

/-- C12. For a registry as main builds it and any order in which the iteration
yields its lists: the build loop produces a container exactly when ParseList and
toProto succeed on every list; the container then holds one group per list, in
the order of the iteration, named by the key of the list and equal to toProto of
ParseList of the list, so that the group names are the keys of the registry, each
once; and when ParseList or toProto fails on some list, no container is
produced and nothing is marshalled. -/
theorem C12_build_all_or_nothing (ref : Registry) (order : List (String × SiteList))
    (hperm : order.Perm ref) (hreg : RegistryOfMain ref) :
    ((∃ n c, build unicode n order ref = some (.ok c)) ↔
      ∀ p ∈ ref, ∃ n pl g, ParseList unicode n p.2 ref = some (.ok pl) ∧ pl.toProto = .ok g) ∧
    (∀ n c, build unicode n order ref = some (.ok c) →
      List.Forall₂ (fun p g => g.CountryCode = p.1 ∧
          ∃ pl, ParseList unicode n p.2 ref = some (.ok pl) ∧ pl.toProto = .ok g) order c.Entry ∧
      (c.Entry.map GeoSite.CountryCode).Perm (ref.map Prod.fst) ∧
      (c.Entry.map GeoSite.CountryCode).Nodup) ∧
    ((∃ p ∈ ref, ∃ m msg, ParseList unicode m p.2 ref = some (.error msg) ∨
        ∃ pl, ParseList unicode m p.2 ref = some (.ok pl) ∧ pl.toProto = .error msg) →
      ∀ n, (∀ c, build unicode n order ref ≠ some (.ok c)) ∧
        ∀ (β : Type) (marshal : GeoSiteList → Except String β) (b : β),
          mainOutput unicode marshal n order ref ≠ some (.ok b)) := by
  obtain ⟨hnd, hname⟩ := hreg
  have hname' : ∀ p ∈ order, p.2.Name = p.1 := fun p hp => hname p (hperm.mem_iff.1 hp)
  refine ⟨⟨?_, ?_⟩, ?_, ?_⟩
  · rintro ⟨n, c, hb⟩ p hp
    obtain ⟨g, _, hg⟩ :=
      forall₂_mem_left ((build_ok_iff n ref order c).1 hb) p (hperm.mem_iff.2 hp)
    obtain ⟨pl, h1, h2⟩ := (siteOf_ok_iff n ref p.2 g).1 hg
    exact ⟨n, pl, g, h1, h2⟩
  · intro hall
    obtain ⟨n, hn⟩ := common_budget ref order (by
      intro p hp
      obtain ⟨n, pl, g, h1, h2⟩ := hall p (hperm.mem_iff.1 hp)
      exact ⟨n, g, (siteOf_ok_iff n ref p.2 g).2 ⟨pl, h1, h2⟩⟩)
    obtain ⟨gs, hgs⟩ :=
      forall₂_of_forall_exists (fun p g => siteOf unicode n ref p.2 = some (.ok g)) order hn
    exact ⟨n, { Entry := gs }, (build_ok_iff n ref order _).2 hgs⟩
  · intro n c hb
    have hf := (build_ok_iff n ref order c).1 hb
    have hnames := forall₂_names n ref order c.Entry hname' hf
    refine ⟨forall₂_imp_mem hf ?_, ?_, ?_⟩
    · intro p hp g hg
      refine ⟨?_, (siteOf_ok_iff n ref p.2 g).1 hg⟩
      rw [siteOf_name ref p.2 n g hg, hname' p hp]
    · rw [hnames]
      exact hperm.map Prod.fst
    · rw [hnames]
      exact (hperm.map Prod.fst).nodup_iff.2 hnd
  · rintro ⟨p, hp, m, msg, hfail⟩ n
    have hsite : siteOf unicode m ref p.2 = some (.error msg) := (siteOf_error_iff m ref p.2 msg).2 hfail
    have hno := build_not_ok_of_failure ref order p (hperm.mem_iff.2 hp) m msg hsite n
    refine ⟨hno, ?_⟩
    intro β marshal b hout
    unfold mainOutput at hout
    cases hb : build unicode n order ref with
    | none => simp [hb] at hout
    | some x =>
      cases x with
      | error e => simp [hb] at hout
      | ok c => exact hno c hb

theorem exampleRegistry_of_main : RegistryOfMain exampleRegistry := by
  unfold RegistryOfMain
  decide

theorem C12_build_all_or_nothing_witness :
    exampleRegistry.Perm exampleRegistry ∧ RegistryOfMain exampleRegistry ∧
      build ascii 2 exampleRegistry exampleRegistry =
        some (.ok { Entry :=
          [{ CountryCode := "A",
             Domain := [⟨Domain_Type.Domain, "example.com"⟩, ⟨Domain_Type.Plain, "ads"⟩] },
           { CountryCode := "B", Domain := [⟨Domain_Type.Plain, "ads"⟩] }] }) ∧
      ∀ p ∈ exampleRegistry, ∃ n pl g,
        ParseList ascii n p.2 exampleRegistry = some (.ok pl) ∧ pl.toProto = .ok g :=
  ⟨List.Perm.refl _, exampleRegistry_of_main, rfl,
    (C12_build_all_or_nothing exampleRegistry exampleRegistry (List.Perm.refl _)
      exampleRegistry_of_main).1.1 ⟨2, _, rfl⟩⟩

theorem forall₂_eq_filterMap (n : Nat) (ref : Registry) (order : List (String × SiteList))
    (gs : List GeoSite)
    (h : List.Forall₂ (fun p g => siteOf unicode n ref p.2 = some (.ok g)) order gs) :
    gs = order.filterMap (fun p => okSite (siteOf unicode n ref p.2)) := by
  induction h with
  | nil => rfl
  | @cons a b l1 l2 hab _ ih =>
    have hhead : okSite (siteOf unicode n ref a.2) = some b := by rw [hab]; rfl
    rw [List.filterMap_cons, hhead, ← ih]

/-- C13 (as stated, refuted). Two runs over the same registry, one whose
iteration yields A before B and one whose iteration yields B before A, produce
containers whose groups stand in different orders; the two containers differ, and
so do their serializations under every encoding that can be decoded. -/
theorem C13_group_order_follows_iteration :
    exampleRegistry.reverse.Perm exampleRegistry ∧
      build ascii 2 exampleRegistry exampleRegistry = some (.ok exampleContainer) ∧
      build ascii 2 exampleRegistry.reverse exampleRegistry = some (.ok exampleContainerReversed) ∧
      exampleContainer ≠ exampleContainerReversed ∧
      ∀ (β : Type) (marshal : GeoSiteList → β) (decode : β → Option GeoSiteList),
        (∀ c, decode (marshal c) = some c) →
        marshal exampleContainer ≠ marshal exampleContainerReversed := by
  have hne : exampleContainer ≠ exampleContainerReversed := by decide
  refine ⟨List.reverse_perm _, rfl, rfl, hne, ?_⟩
  intro β marshal decode hdec heq
  have h1 := hdec exampleContainer
  rw [heq, hdec exampleContainerReversed] at h1
  exact hne (Option.some.inj h1).symm

/-- C13 (amended). Two runs of the build loop over the same registry, each in the
order in which its iteration yields the lists, succeed together, and their
containers hold the same groups up to order: the group sequences are
permutations of each other, and are equal when the two iteration orders are. -/
theorem C13_groups_equal_up_to_order (ref : Registry) (o1 o2 : List (String × SiteList))
    (h1 : o1.Perm ref) (h2 : o2.Perm ref) (n : Nat) (c1 : GeoSiteList)
    (hb : build unicode n o1 ref = some (.ok c1)) :
    ∃ c2, build unicode n o2 ref = some (.ok c2) ∧ c1.Entry.Perm c2.Entry ∧ (o1 = o2 → c1 = c2) := by
  have hf1 := (build_ok_iff n ref o1 c1).1 hb
  have h21 : o2.Perm o1 := h2.trans h1.symm
  obtain ⟨gs, hgs⟩ :=
    forall₂_of_forall_exists (fun p g => siteOf unicode n ref p.2 = some (.ok g)) o2 (by
      intro p hp
      obtain ⟨g, _, hg⟩ := forall₂_mem_left hf1 p (h21.mem_iff.1 hp)
      exact ⟨g, hg⟩)
  have hb2 : build unicode n o2 ref = some (.ok { Entry := gs }) := (build_ok_iff n ref o2 _).2 hgs
  refine ⟨{ Entry := gs }, hb2, ?_, ?_⟩
  · rw [forall₂_eq_filterMap n ref o1 c1.Entry hf1, forall₂_eq_filterMap n ref o2 gs hgs]
    exact h21.symm.filterMap _
  · intro heq
    subst heq
    rw [hb] at hb2
    exact Except.ok.inj (Option.some.inj hb2)

theorem C13_groups_equal_up_to_order_witness :
    exampleRegistry.Perm exampleRegistry ∧ exampleRegistry.reverse.Perm exampleRegistry ∧
      build ascii 2 exampleRegistry exampleRegistry = some (.ok exampleContainer) ∧
      ∃ c2, build ascii 2 exampleRegistry.reverse exampleRegistry = some (.ok c2) ∧
        exampleContainer.Entry.Perm c2.Entry ∧
        (exampleRegistry = exampleRegistry.reverse → exampleContainer = c2) :=
  ⟨List.Perm.refl _, List.reverse_perm _, rfl,
    C13_groups_equal_up_to_order exampleRegistry exampleRegistry exampleRegistry.reverse
      (List.Perm.refl _) (List.reverse_perm _) 2 exampleContainer rfl⟩

/-! ## Serialization of the container -/

theorem decodeVarint_varintAux (fuel : Nat) :
    ∀ n rest, n ≤ fuel → decodeVarint (varintAux fuel n ++ rest) = some (n, rest) := by
  induction fuel with
  | zero =>
    intro n rest hn
    have h0 : n = 0 := by omega
    subst h0
    simp [varintAux, decodeVarint]
  | succ fuel ih =>
    intro n rest hn
    by_cases hsmall : n < 128
    · simp [varintAux, decodeVarint, hsmall]
    · have hrec := ih (n / 128) rest (by omega)
      have hbig : ¬ (128 + n % 128 < 128) := by omega
      simp only [varintAux, hsmall, if_false, List.cons_append, decodeVarint, hbig, hrec]
      have : 128 + n % 128 - 128 + 128 * (n / 128) = n := by omega
      rw [this]

theorem decodeVarint_encodeVarint (n : Nat) (rest : List Nat) :
    decodeVarint (encodeVarint n ++ rest) = some (n, rest) :=
  decodeVarint_varintAux n n rest (le_refl n)

theorem varintAux_length_pos (fuel n : Nat) : 0 < (varintAux fuel n).length := by
  cases fuel with
  | zero => simp [varintAux]
  | succ fuel =>
    simp only [varintAux]
    split <;> simp

theorem utf8Char_length_pos (c : Char) : 0 < (utf8Char c).length := by
  unfold utf8Char
  simp only []
  split_ifs <;> simp

theorem utf8DecodeAux_char (fuel : Nat) (c : Char) (rest : List Nat) :
    utf8DecodeAux (fuel + 1) (utf8Char c ++ rest) =
      (utf8DecodeAux fuel rest).map (fun cs => c :: cs) := by
  unfold utf8Char
  simp only []
  by_cases h1 : c.toNat < 128
  · simp only [h1, if_true, List.singleton_append, utf8DecodeAux, Char.ofNat_toNat]
  · by_cases h2 : c.toNat < 2048
    · have hb : ¬ (192 + c.toNat / 64 < 128) := by omega
      have hb2 : 192 + c.toNat / 64 < 224 := by omega
      have hval : (192 + c.toNat / 64 - 192) * 64 + (128 + c.toNat % 64 - 128) = c.toNat := by
        omega
      simp only [h1, h2, if_true, if_false, List.cons_append, List.nil_append, utf8DecodeAux,
        hb, hb2, hval, Char.ofNat_toNat]
    · by_cases h3 : c.toNat < 65536
      · have hb : ¬ (224 + c.toNat / 4096 < 128) := by omega
        have hb2 : ¬ (224 + c.toNat / 4096 < 224) := by omega
        have hb3 : 224 + c.toNat / 4096 < 240 := by omega
        have hval : (224 + c.toNat / 4096 - 224) * 4096 + (128 + c.toNat / 64 % 64 - 128) * 64 +
            (128 + c.toNat % 64 - 128) = c.toNat := by omega
        simp only [h1, h2, h3, if_true, if_false, List.cons_append, List.nil_append,
          utf8DecodeAux, hb, hb2, hb3, hval, Char.ofNat_toNat]
      · have hb : ¬ (240 + c.toNat / 262144 < 128) := by omega
        have hb2 : ¬ (240 + c.toNat / 262144 < 224) := by omega
        have hb3 : ¬ (240 + c.toNat / 262144 < 240) := by omega
        have hval : (240 + c.toNat / 262144 - 240) * 262144 +
            (128 + c.toNat / 4096 % 64 - 128) * 4096 + (128 + c.toNat / 64 % 64 - 128) * 64 +
            (128 + c.toNat % 64 - 128) = c.toNat := by omega
        simp only [h1, h2, h3, if_false, List.cons_append, List.nil_append,
          utf8DecodeAux, hb, hb2, hb3, hval, Char.ofNat_toNat]

theorem utf8DecodeAux_flatMap (cs : List Char) :
    ∀ fuel, cs.length ≤ fuel → utf8DecodeAux fuel (cs.flatMap utf8Char) = some cs := by
  induction cs with
  | nil => intro fuel _; cases fuel <;> simp [utf8DecodeAux]
  | cons c cs ih =>
    intro fuel hf
    obtain ⟨k, rfl⟩ : ∃ k, fuel = k + 1 := ⟨fuel - 1, by simp at hf; omega⟩
    rw [List.flatMap_cons, utf8DecodeAux_char, ih k (by simp at hf; omega)]
    rfl

theorem flatMap_utf8Char_length (cs : List Char) : cs.length ≤ (cs.flatMap utf8Char).length := by
  induction cs with
  | nil => simp
  | cons c cs ih =>
    have := utf8Char_length_pos c
    simp only [List.flatMap_cons, List.length_append, List.length_cons]
    omega

/-- The bytes of a string stand for that string. -/
theorem utf8Decode_utf8Bytes (s : String) : utf8Decode (utf8Bytes s) = some s := by
  unfold utf8Decode utf8Bytes
  rw [utf8DecodeAux_flatMap s.data _ (flatMap_utf8Char_length s.data)]
  rfl

theorem encodeVarint_ne_nil (n : Nat) (rest : List Nat) : encodeVarint n ++ rest ≠ [] := by
  intro h
  have hlen := congrArg List.length h
  have := varintAux_length_pos n n
  simp only [encodeVarint, List.length_append, List.length_nil] at hlen
  omega

theorem encodeField_ne_nil (fld : Nat × WireValue) (rest : List Nat) :
    encodeField fld ++ rest ≠ [] := by
  obtain ⟨f, v⟩ := fld
  cases v with
  | varint n =>
    simp only [encodeField, List.append_assoc]
    exact encodeVarint_ne_nil _ _
  | bytes b =>
    simp only [encodeField, List.append_assoc]
    exact encodeVarint_ne_nil _ _

theorem encodeField_length_pos (fld : Nat × WireValue) : 0 < (encodeField fld).length := by
  have h := encodeField_ne_nil fld []
  rw [List.append_nil] at h
  exact List.length_pos.2 h

/-- Reading one field back. -/
theorem parseFields_field (fuel : Nat) (fld : Nat × WireValue) (rest : List Nat) :
    parseFields (fuel + 1) (encodeField fld ++ rest) =
      (parseFields fuel rest).map (fun fs => fld :: fs) := by
  rw [parseFields, if_neg (encodeField_ne_nil fld rest)]
  obtain ⟨f, v⟩ := fld
  cases v with
  | varint n =>
    have h1 : (f * 8) % 8 = 0 := by omega
    have h2 : f * 8 / 8 = f := by omega
    simp only [encodeField, List.append_assoc, decodeVarint_encodeVarint, h1, h2, if_true]
  | bytes b =>
    have h2 : (f * 8 + 2) % 8 = 2 := by omega
    have h3 : (f * 8 + 2) / 8 = f := by omega
    have h4 : b.length ≤ (b ++ rest).length := by simp
    have h5 : ¬ ((2 : Nat) = 0) := by decide
    simp only [encodeField, List.append_assoc, decodeVarint_encodeVarint, h2, h3, h4, h5,
      if_true, if_false, List.take_left, List.drop_left]

theorem parseFields_encodeFields (fs : List (Nat × WireValue)) :
    ∀ fuel, fs.length ≤ fuel → parseFields fuel (encodeFields fs) = some fs := by
  induction fs with
  | nil => intro fuel _; cases fuel <;> simp [encodeFields, parseFields]
  | cons fld fs ih =>
    intro fuel hf
    obtain ⟨k, rfl⟩ : ∃ k, fuel = k + 1 := ⟨fuel - 1, by simp at hf; omega⟩
    have hcons : encodeFields (fld :: fs) = encodeField fld ++ encodeFields fs := by
      simp [encodeFields]
    rw [hcons, parseFields_field, ih k (by simp at hf; omega)]
    rfl

theorem encodeFields_length (fs : List (Nat × WireValue)) :
    fs.length ≤ (encodeFields fs).length := by
  induction fs with
  | nil => simp
  | cons fld fs ih =>
    have := encodeField_length_pos fld
    have hcons : encodeFields (fld :: fs) = encodeField fld ++ encodeFields fs := by
      simp [encodeFields]
    rw [hcons]
    simp only [List.length_append, List.length_cons]
    omega

/-- The fields of a message are read back from its bytes. -/
theorem parseFields_message (fs : List (Nat × WireValue)) :
    parseFields (encodeFields fs).length (encodeFields fs) = some fs :=
  parseFields_encodeFields fs _ (encodeFields_length fs)

theorem Domain_Type_ofNat_toNat (t : Domain_Type) : Domain_Type.ofNat? t.toNat = some t := by
  cases t <;> rfl

theorem decodeDomain_encodeDomain (d : Domain) : decodeDomain (encodeDomain d) = some d := by
  unfold decodeDomain encodeDomain
  rw [parseFields_message]
  simp [domainFields, readDomain, Domain_Type_ofNat_toNat, utf8Decode_utf8Bytes]

theorem readGeoSite_domains (ds : List Domain) :
    ∀ g, readGeoSite g (ds.map (fun d => (2, WireValue.bytes (encodeDomain d)))) =
      some { g with Domain := g.Domain ++ ds } := by
  induction ds with
  | nil => intro g; simp [readGeoSite]
  | cons d ds ih =>
    intro g
    simp only [List.map_cons, readGeoSite, decodeDomain_encodeDomain]
    rw [ih]
    simp

theorem decodeGeoSite_encodeGeoSite (g : GeoSite) : decodeGeoSite (encodeGeoSite g) = some g := by
  unfold decodeGeoSite encodeGeoSite
  rw [parseFields_message]
  simp only [geoSiteFields, readGeoSite, utf8Decode_utf8Bytes]
  rw [readGeoSite_domains]
  simp

theorem readGeoSiteList_groups (gs : List GeoSite) :
    ∀ c, readGeoSiteList c (gs.map (fun g => (1, WireValue.bytes (encodeGeoSite g)))) =
      some { Entry := c.Entry ++ gs } := by
  induction gs with
  | nil => intro c; simp [readGeoSiteList]
  | cons g gs ih =>
    intro c
    simp only [List.map_cons, readGeoSiteList, decodeGeoSite_encodeGeoSite]
    rw [ih]
    simp

/-- Decoding the serialized container gives the container back. -/
theorem Unmarshal_Marshal (c : GeoSiteList) : Unmarshal (Marshal c) = some c := by
  unfold Unmarshal Marshal
  rw [parseFields_message]
  simp only [geoSiteListFields]
  rw [readGeoSiteList_groups]
  simp

/-- C14. Whenever the build loop produces a container, main hands the
serialization of that container to the file write, and decoding these bytes
gives a container equal to the built one: the same groups with the same names,
and in each group the same matchers with the same kinds and values, all in the
same order. -/
theorem C14_decode_of_serialized_container (n : Nat) (order : List (String × SiteList))
    (ref : Registry) (c : GeoSiteList) (hb : build unicode n order ref = some (.ok c)) :
    mainOutput unicode (fun p => Except.ok (Marshal p)) n order ref = some (.ok (Marshal c)) ∧
      Unmarshal (Marshal c) = some c := by
  refine ⟨?_, Unmarshal_Marshal c⟩
  simp only [mainOutput, hb]

theorem C14_decode_of_serialized_container_witness :
    build ascii 2 exampleRegistry exampleRegistry = some (.ok exampleContainer) ∧
      mainOutput ascii (fun p => Except.ok (Marshal p)) 2 exampleRegistry exampleRegistry =
        some (.ok (Marshal exampleContainer)) ∧
      Unmarshal (Marshal exampleContainer) = some exampleContainer :=
  ⟨rfl, C14_decode_of_serialized_container 2 exampleRegistry exampleRegistry
    exampleContainer rfl⟩

/-! ## Names beyond ASCII -/

theorem latin_AgreesOnAscii : AgreesOnAscii latin := by
  intro c hc
  have h1 : c ≠ 'é' := by
    intro h
    rw [h] at hc
    exact absurd hc (by decide)
  have h2 : c ≠ 'É' := by
    intro h
    rw [h] at hc
    exact absurd hc (by decide)
  simp [latin, h1, h2]

theorem latin_UpperIdempotent : UpperIdempotent latin := by
  intro c
  by_cases h : c = 'é'
  · subst h
    decide
  · have h1 : latin.ToUpper c = c.toUpper := by simp [latin, h]
    rw [h1]
    by_cases h2 : c.toUpper = 'é'
    · exfalso
      have h3 := Char_toUpper_toUpper c
      rw [h2] at h3
      have h4 : ('é' : Char).toUpper = 'é' := by decide
      rw [h4] at h3
      have h5 : c.toUpper = c := by
        by_contra hne
        have hlow : c.isLower = true := by
          cases hl : c.isLower with
          | true => rfl
          | false => exact absurd ((Char_toUpper_eq_self_iff c).2 hl) hne
        have hr := (Char_isLower_iff c).1 hlow
        have hval : c.toUpper.toNat = 233 := by rw [h2]; decide
        have hlt : c.toUpper.toNat < 128 := by
          have key : ∀ n, 97 ≤ n → n ≤ 122 → (Char.ofNat (n - 32)).toNat < 128 := by
            intro n h1 h2
            interval_cases n <;> decide
          have hdef : c.toUpper = Char.ofNat (c.toNat - 32) := by
            unfold Char.toUpper
            simp only []
            rw [if_pos ⟨hr.1, hr.2⟩]
          rw [hdef]
          exact key _ hr.1 hr.2
        omega
      exact h (h5 ▸ h2)
    · simp [latin, h2, Char_toUpper_toUpper]

/-- With `é` upper-cased to `É`, the include of `é` is resolved to the list
stored under `É`. -/
theorem ParseList_accent_resolved :
    ParseList latin 2 { Name := "A", Entry := [⟨"include", "é"⟩] } accentRegistry =
      some (.ok { Name := "A", Inclusion := ["É"], Entry := [⟨"keyword", "ads"⟩] }) := rfl

/-- With `é` upper-cased to `É`, the list `É = [include:é]` is expanded in every
pass: the guard reads the raw value `é` while the set holds `É`. -/
theorem parseLoop_accent_runs (n : Nat) :
    parseLoop latin accentLoopRegistry n ["É"] [⟨"include", "é"⟩] = none := by
  induction n with
  | zero => rfl
  | succ n ih => exact ih

end DomainList
